import Mathlib

/-!
A shallow embedding of the RogueMap storage engine (src/RogueMap.ts) and proofs
about its public operations.

Modelling conventions:

* The engine is modelled in its default, single-page configuration
  (`rawBuffer` non-null): the 10 MiB default buffer is far below the 2^30-byte
  page size, so every operation takes the "OPTIMIZED PATH" of the source.
* Keys and values are byte lists.  The default codecs are external collaborators
  that the core never interprets; the embedding instantiates them with the
  identity byte codec (variable length, `fixedLength` undefined for both key and
  value, as with the default `AnyCodec`), so every record carries the
  KeyLen and ValLen fields.
* The `Buffer` is a `List Nat` of bytes.  The engine's `writeOffset` always
  equals the length of the meaningful prefix of the buffer, so the model stores
  exactly that prefix in `log` and keeps the allocation size in `bufLen`;
  `log.length` plays the role of `this.writeOffset`.
* JavaScript bitwise reads (`b0 | b1 << 8 | b2 << 16 | b3 << 24`) produce a
  signed 32-bit integer; the model mirrors this exactly with `toInt32`.
  `Buffer.readUInt32LE` is unsigned and is modelled by `r32le`.
* `Date.now()` is passed explicitly as a `now : Nat` argument (epoch ms).
* Operations that can throw return `Except String`; partial mutations that the
  source performs before throwing are preserved in the returned state.
-/

namespace RogueMap

/-- Byte strings: lists of byte values. -/
abbrev Bytes := List Nat

/-- Little-endian 4-byte encoding of a natural number, as produced by the
manual `x & 0xff, (x >>> 8) & 0xff, ...` writes of the source. -/
def w32le (x : Nat) : Bytes :=
  [x % 256, x / 256 % 256, x / 65536 % 256, x / 16777216 % 256]

/-- Read `len` bytes starting at `pos` (out-of-range positions read as 0;
all modelled states keep reads in bounds). -/
def readBytes (l : Bytes) (pos len : Nat) : Bytes :=
  (List.range len).map fun j => l.getD (pos + j) 0

/-- Unsigned little-endian 32-bit read, as performed by `readUInt32LE`. -/
def r32le (l : Bytes) (pos : Nat) : Nat :=
  l.getD pos 0 + l.getD (pos + 1) 0 * 256 + l.getD (pos + 2) 0 * 65536 +
    l.getD (pos + 3) 0 * 16777216

/-- Reinterpret an unsigned 32-bit value as a signed 32-bit integer.  This is
what a JavaScript `b0 | b1 << 8 | b2 << 16 | b3 << 24` read chain yields. -/
def toInt32 (n : Nat) : Int :=
  if n % 4294967296 < 2147483648 then ((n % 4294967296 : Nat) : Int)
  else ((n % 4294967296 : Nat) : Int) - 4294967296

/-- JavaScript `x | 0` (ToInt32) applied to an integer. -/
def int32ofInt (i : Int) : Int := toInt32 (i.emod 4294967296).toNat

/-- Signed 32-bit little-endian read performed with JavaScript `|` chains
(also the behaviour of `Buffer.readInt32LE`). -/
def r32sle (l : Bytes) (pos : Nat) : Int := toInt32 (r32le l pos)

/-- Record layout (V2): Flag(1) Hash(4) ExpireAt(8) KeyLen(4) ValLen(4) Key Val.
Entry bytes as written by the insert/update paths of `put`. -/
def entryBytes (hashI : Int) (expireAt : Nat) (k v : Bytes) : Bytes :=
  1 :: (w32le (hashI.emod 4294967296).toNat ++
    (w32le (expireAt % 4294967296) ++ (w32le (expireAt / 4294967296) ++
      (w32le k.length ++ (w32le v.length ++ (k ++ v))))))

/-- Size of an entry for a key/value pair: 13-byte header plus the two length
fields plus the payload (the default codecs declare no fixed length). -/
def entrySize (k v : Bytes) : Nat := 21 + k.length + v.length

/-- Record hash, read signed at offset+1. -/
def readHash (log : Bytes) (off : Nat) : Int := r32sle log (off + 1)

/-- Stored key length, read (signed, as the manual read chains do) at
offset+13. -/
def readKeyLenI (log : Bytes) (off : Nat) : Int := r32sle log (off + 13)

/-- Stored value length, read at offset+17. -/
def readValLenI (log : Bytes) (off : Nat) : Int := r32sle log (off + 17)

/-- ExpireAt as reconstructed by the single-page fast path: both 32-bit halves
are read with `|` chains, hence SIGNED, and recombined as
`high * 0x100000000 + low`.  For a stored value `e < 2^53` whose low word has
its top bit set this yields `e - 2^32`. -/
def readExpireRaw (log : Bytes) (off : Nat) : Int :=
  r32sle log (off + 9) * 4294967296 + r32sle log (off + 5)

/-- ExpireAt as reconstructed by `compact()`, which uses the unsigned
`readUInt32LE` for both halves. -/
def readExpireU (log : Bytes) (off : Nat) : Nat :=
  r32le log (off + 9) * 4294967296 + r32le log (off + 5)

/-- Entry length as recomputed by the scan loops (resize/compact/iteration)
from the stored length fields. -/
def entryLenAt (log : Bytes) (pos : Nat) : Nat :=
  21 + (readKeyLenI log pos).toNat + (readValLenI log pos).toNat

/-- Events emitted by the engine. -/
inductive Event where
  | setEv (k v : Bytes)
  | deleteEv (k : Bytes)
  | expire (k : Bytes)
  | evict (k v : Bytes)
  | clearEv
  deriving Repr, DecidableEq

/-- Decidable equality for `Except`, used to evaluate concrete runs. -/
instance {e a : Type} [DecidableEq e] [DecidableEq a] : DecidableEq (Except e a)
  | .error x, .error y =>
    if h : x = y then .isTrue (by rw [h]) else .isFalse (by simp [h])
  | .error _, .ok _ => .isFalse (by simp)
  | .ok _, .error _ => .isFalse (by simp)
  | .ok x, .ok y =>
    if h : x = y then .isTrue (by rw [h]) else .isFalse (by simp [h])

/-- Engine state.  `log.length` is the write cursor (`this.writeOffset`);
byte 0 of `log` is the reserved sentinel so the first record starts at 1.
`cache` is `some entries` iff `cacheSize > 0`; entries are in JS-`Map`
insertion order (oldest first). -/
structure EngineState where
  capacity : Nat
  hashes : List Int
  offsets : List Int
  log : Bytes
  bufLen : Nat
  size : Nat
  deletedCount : Nat
  cache : Option (List (Bytes × Bytes))
  cacheSize : Nat
  defaultTTL : Nat
  autoCompact : Bool
  thresholdNum : Nat
  thresholdDen : Nat
  minSize : Nat
  deriving Repr, DecidableEq

/-- Round a requested capacity up to a power of two, as the constructor and
`resize` do. -/
def pow2ceil (n : Nat) : Nat :=
  if n &&& (n - 1) == 0 then n else 2 ^ Nat.clog 2 n

/-- Fresh engine, mirroring the constructor (no persistence adapter). -/
def mkEngine (capacity0 initialMemory0 cacheSize ttl : Nat)
    (autoCompact : Bool := true) (thresholdNum : Nat := 3)
    (thresholdDen : Nat := 10) (minSize : Nat := 1000) : EngineState :=
  let cap := pow2ceil (if capacity0 == 0 then 16384 else capacity0)
  { capacity := cap
    hashes := List.replicate cap 0
    offsets := List.replicate cap 0
    log := [0]
    bufLen := if initialMemory0 == 0 then 10485760 else initialMemory0
    size := 0
    deletedCount := 0
    cache := if cacheSize > 0 then some [] else none
    cacheSize := cacheSize
    defaultTTL := ttl
    autoCompact := autoCompact
    thresholdNum := thresholdNum
    thresholdDen := thresholdDen
    minSize := minSize }

/-- Lookup in the JS `Map` backing the hot cache (key equality on bytes). -/
def cacheGet (c : List (Bytes × Bytes)) (k : Bytes) : Option Bytes :=
  (c.find? fun p => p.1 == k).map fun p => p.2

/-- JS `Map.delete`. -/
def cacheDelete (c : List (Bytes × Bytes)) (k : Bytes) : List (Bytes × Bytes) :=
  c.filter fun p => !(p.1 == k)

/-- Cache update performed by `set`: refresh if present, otherwise evict the
oldest entry when full, then append. -/
def cacheUpdateOnSet (c : List (Bytes × Bytes)) (cacheSize : Nat) (k v : Bytes) :
    List (Bytes × Bytes) × List Event :=
  if (c.find? fun p => p.1 == k).isSome then (cacheDelete c k ++ [(k, v)], [])
  else if c.length ≥ cacheSize then
    match c with
    | [] => ([(k, v)], [])
    | (k0, v0) :: rest => (rest ++ [(k, v)], [.evict k0 v0])
  else (c ++ [(k, v)], [])

/-- Cache update performed on a successful table read in `get`. -/
def cacheInsertRead (c : List (Bytes × Bytes)) (cacheSize : Nat) (k v : Bytes) :
    List (Bytes × Bytes) × List Event :=
  if c.length ≥ cacheSize then
    match c with
    | [] => ([(k, v)], [])
    | (k0, v0) :: rest => (rest ++ [(k, v)], [.evict k0 v0])
  else (c ++ [(k, v)], [])

/-- The inline key comparison of the probe loops: the stored key length must
equal the encoded key length and the stored key bytes must equal the encoded
key bytes (the short-key byte loop and the bulk compare agree on this). -/
def keyMatchesAt (log : Bytes) (off : Nat) (kb : Bytes) : Bool :=
  readKeyLenI log off == (kb.length : Int) &&
    readBytes log (off + 21) kb.length == kb

/-- Number of ACTIVE records seen by a sequential parse of the log starting at
`pos` (the walk that resize/compact/iteration perform). -/
def activeCountFrom (log : Bytes) (pos : Nat) : Nat :=
  if pos < log.length then
    (if log.getD pos 0 == 1 then 1 else 0) +
      activeCountFrom log (pos + entryLenAt log pos)
  else 0
termination_by log.length - pos
decreasing_by
  have h21 : 21 ≤ entryLenAt log pos := by unfold entryLenAt; omega
  omega

/-- Number of ACTIVE records in the whole log. -/
def activeCount (log : Bytes) : Nat := activeCountFrom log 1

/-- Positions at which the sequential parse starting at `pos` sees a record. -/
def boundariesFrom (log : Bytes) (pos : Nat) : List Nat :=
  if pos < log.length then
    pos :: boundariesFrom log (pos + entryLenAt log pos)
  else []
termination_by log.length - pos
decreasing_by
  have h21 : 21 ≤ entryLenAt log pos := by unfold entryLenAt; omega
  omega

/-- Record start positions of the whole log. -/
def boundaries (log : Bytes) : List Nat := boundariesFrom log 1

/-- Final cursor position of the sequential parse starting at `pos`. -/
def parseEndFrom (log : Bytes) (pos : Nat) : Nat :=
  if pos < log.length then parseEndFrom log (pos + entryLenAt log pos)
  else pos
termination_by log.length - pos
decreasing_by
  have h21 : 21 ≤ entryLenAt log pos := by unfold entryLenAt; omega
  omega

/-- The sequential parse of the log lands exactly on the write cursor. -/
def ExactParse (log : Bytes) : Prop := parseEndFrom log 1 = log.length

/-- Structural well-formedness of the index against the log: every non-empty
slot stores a positive-or-negative offset whose magnitude is a record start
position of the log. -/
def SlotsPointAtRecords (offsets : List Int) (log : Bytes) : Prop :=
  ∀ i, offsets.getD i 0 ≠ 0 → (offsets.getD i 0).natAbs ∈ boundaries log

/-- The structural invariant of a well-formed engine used by the load-factor
theorem: the log parses exactly to the write cursor, the live counter equals
the number of ACTIVE records, and index slots point at record starts. -/
def GoodState (s : EngineState) : Prop :=
  ExactParse s.log ∧ activeCount s.log = s.size ∧
    SlotsPointAtRecords s.offsets s.log ∧ 1 ≤ s.log.length

/-- The bucket-insertion probe used while replaying records during `resize`:
find the first empty slot, wrapping at `start`. -/
def fillSlot (hashes offsets : List Int) (mask : Nat) (hashI off : Int)
    (start : Nat) : Nat → Nat → Option (List Int × List Int)
  | 0, _ => none
  | fuel + 1, idx =>
    if offsets.getD idx 0 == 0 then
      some (hashes.set idx hashI, offsets.set idx off)
    else
      let idx' := (idx + 1) &&& mask
      if idx' == start then none
      else fillSlot hashes offsets mask hashI off start fuel idx'

/-- The replay loop of `resize` (single-page fast path): walk the old log,
block-copy each ACTIVE record to the new log and insert its hash/offset into
the fresh index arrays. -/
def resizeGo (oldLog : Bytes) (oldLimit newCap newMem : Nat) :
    Nat → Nat → List Int → List Int → Bytes → Nat →
    Except String (List Int × List Int × Bytes × Nat)
  | 0, _, hashes, offsets, newLog, size => .ok (hashes, offsets, newLog, size)
  | fuel + 1, cursor, hashes, offsets, newLog, size =>
    if cursor < oldLimit then
      let flag := oldLog.getD cursor 0
      let hashI := readHash oldLog cursor
      let entryLen := entryLenAt oldLog cursor
      if flag == 1 then
        if newLog.length + entryLen > newMem then
          .error "RogueMap: Resize failed (Buffer full)"
        else
          let bytes := readBytes oldLog cursor entryLen
          let start := hashI.natAbs &&& (newCap - 1)
          match fillSlot hashes offsets (newCap - 1) hashI (newLog.length : Int)
              start newCap start with
          | none => .error "RogueMap: Hash table full during resize"
          | some (h', o') =>
            resizeGo oldLog oldLimit newCap newMem fuel (cursor + entryLen) h'
              o' (newLog ++ bytes) (size + 1)
      else
        resizeGo oldLog oldLimit newCap newMem fuel (cursor + entryLen) hashes
          offsets newLog size
    else .ok (hashes, offsets, newLog, size)

/-- The `resize` method: reallocate the index arrays at `pow2ceil newCapacity`
buckets and a fresh log of `newMemory` bytes, then replay all ACTIVE records.
`deletedCount` is left untouched (as in the source). -/
def resizeOp (s : EngineState) (newCapacity newMemory : Nat) :
    Except String EngineState :=
  let newCap := pow2ceil newCapacity
  match resizeGo s.log s.log.length newCap newMemory s.log.length 1
      (List.replicate newCap 0) (List.replicate newCap 0) [0] 0 with
  | .error e => .error e
  | .ok (h, o, newLog, size) =>
    .ok { s with capacity := newCap, hashes := h, offsets := o, log := newLog,
                 bufLen := newMemory, size := size }

/-- The scan phase of `compact()`: flip expired ACTIVE records to DELETED
(emitting `expire`), and sum the bytes of the remaining ACTIVE records.
Returns (log, size, deletedCount, requiredSize, events). -/
def compactGo (now : Nat) (limit : Nat) :
    Nat → Nat → Bytes → Nat → Nat → Nat → List Event →
    Bytes × Nat × Nat × Nat × List Event
  | 0, _, log, size, deleted, required, evs => (log, size, deleted, required, evs)
  | fuel + 1, cursor, log, size, deleted, required, evs =>
    if cursor < limit then
      let entryLen := entryLenAt log cursor
      if log.getD cursor 0 == 1 then
        let e := readExpireU log cursor
        if 0 < e && now > e then
          let keySize := (readKeyLenI log cursor).toNat
          let key := readBytes log (cursor + 21) keySize
          compactGo now limit fuel (cursor + entryLen) (log.set cursor 2)
            (size - 1) (deleted + 1) required (evs ++ [.expire key])
        else
          compactGo now limit fuel (cursor + entryLen) log size deleted
            (required + entryLen) evs
      else compactGo now limit fuel (cursor + entryLen) log size deleted required evs
    else (log, size, deleted, required, evs)

/-- The `compact()` method: scan (flipping expired records), then resize to the
same capacity with a buffer of `max(required * 1.2, 1024)` bytes (the 1.2
factor is modelled with exact integer arithmetic), and zero the tombstone
counter. -/
def compactOp (s : EngineState) (now : Nat) :
    Except String (EngineState × List Event) :=
  match compactGo now s.log.length s.log.length 1 s.log s.size s.deletedCount
      1 [] with
  | (log', size', deleted', required, evs) =>
    let newBufferSize := max (required * 12 / 10) 1024
    let t0 : EngineState :=
      { s with log := log', size := size', deletedCount := deleted' }
    match resizeOp t0 s.capacity newBufferSize with
    | .error e => .error e
    | .ok t => .ok ({ t with deletedCount := 0 }, evs)

/-- The auto-compaction check run after mutating operations.  The `||` defaults
of the source make a zero `minSize` behave as 1000 and a zero threshold behave
as 3/10. -/
def checkCompaction (s : EngineState) (now : Nat) :
    Except String (EngineState × List Event) :=
  if !s.autoCompact then .ok (s, [])
  else
    let minSz := if s.minSize == 0 then 1000 else s.minSize
    if s.size + s.deletedCount < minSz then .ok (s, [])
    else
      let num := if s.thresholdNum == 0 then 3 else s.thresholdNum
      let den := if s.thresholdNum == 0 then 10 else s.thresholdDen
      if s.deletedCount * den > num * (s.size + s.deletedCount) then
        compactOp s now
      else .ok (s, [])

/-- The probe shared by the lookup loops: starting at `start = |hash| & mask`,
walk `(i + 1) & mask` until an empty slot, a matching slot (positive offset,
equal hash, equal key bytes), or wraparound.  Returns the matching slot index
and its (positive) stored offset.  This is the common skeleton of the loops in
`get`/`has`/`delete`; each operation's own loop is defined separately below
and proved to coincide with it. -/
def findGo (offsets hashes : List Int) (log : Bytes) (cap : Nat) (hashI : Int)
    (kb : Bytes) (start : Nat) : Nat → Nat → Option (Nat × Int)
  | 0, _ => none
  | fuel + 1, idx =>
    let off := offsets.getD idx 0
    if off == 0 then none
    else if 0 < off && (hashes.getD idx 0 == hashI &&
        keyMatchesAt log off.toNat kb) then
      some (idx, off)
    else
      let idx' := (idx + 1) &&& (cap - 1)
      if idx' == start then none
      else findGo offsets hashes log cap hashI kb start fuel idx'

/-- Probe for a key from its hash's start slot. -/
def findSlot (s : EngineState) (hashI : Int) (kb : Bytes) : Option (Nat × Int) :=
  let start := hashI.natAbs &&& (s.capacity - 1)
  findGo s.offsets s.hashes s.log s.capacity hashI kb start s.capacity start

/-- The state mutation of a lazy delete (expiry on lookup) or of `delete`
itself: flip the record's flag to DELETED, negate the slot's offset, bump
tombstones, drop the live count. -/
def tombstoneAt (s : EngineState) (idx : Nat) (off : Int) : EngineState :=
  { s with log := s.log.set off.toNat 2,
           offsets := s.offsets.set idx (-off),
           deletedCount := s.deletedCount + 1,
           size := s.size - 1 }

/-- The probe loop of `get` (single-page fast path). -/
def getGo (s : EngineState) (k : Bytes) (hashI : Int) (now : Nat) (start : Nat) :
    Nat → Nat → Except String (Option Bytes × EngineState × List Event)
  | 0, _ => .ok (none, s, [])
  | fuel + 1, idx =>
    let off := s.offsets.getD idx 0
    if off == 0 then .ok (none, s, [])
    else if 0 < off && (s.hashes.getD idx 0 == hashI &&
        keyMatchesAt s.log off.toNat k) then
      let e := readExpireRaw s.log off.toNat
      if 0 < e && (now : Int) > e then
        match checkCompaction (tombstoneAt s idx off) now with
        | .error msg => .error msg
        | .ok (s', evs) => .ok (none, s', evs ++ [.expire k])
      else
        let vl := (readValLenI s.log off.toNat).toNat
        let v := readBytes s.log (off.toNat + 21 + k.length) vl
        match s.cache with
        | some c =>
          let r := cacheInsertRead c s.cacheSize k v
          .ok (some v, { s with cache := some r.1 }, r.2)
        | none => .ok (some v, s, [])
    else
      let idx' := (idx + 1) &&& (s.capacity - 1)
      if idx' == start then .ok (none, s, [])
      else getGo s k hashI now start fuel idx'

/-- The `get` method: consult the hot cache first (refreshing on a hit), then
probe the table, applying the lazy TTL delete on an expired match and updating
the cache on a successful read. -/
def getOp (hasher : Bytes → Int) (s : EngineState) (k : Bytes) (now : Nat) :
    Except String (Option Bytes × EngineState × List Event) :=
  match s.cache with
  | some c =>
    match cacheGet c k with
    | some v =>
      .ok (some v, { s with cache := some (cacheDelete c k ++ [(k, v)]) }, [])
    | none =>
      let hashI := int32ofInt (hasher k)
      let start := hashI.natAbs &&& (s.capacity - 1)
      getGo s k hashI now start s.capacity start
  | none =>
    let hashI := int32ofInt (hasher k)
    let start := hashI.natAbs &&& (s.capacity - 1)
    getGo s k hashI now start s.capacity start

/-- The probe loop of `has`. -/
def hasGo (s : EngineState) (k : Bytes) (hashI : Int) (now : Nat) (start : Nat) :
    Nat → Nat → Except String (Bool × EngineState × List Event)
  | 0, _ => .ok (false, s, [])
  | fuel + 1, idx =>
    let off := s.offsets.getD idx 0
    if off == 0 then .ok (false, s, [])
    else if 0 < off && (s.hashes.getD idx 0 == hashI &&
        keyMatchesAt s.log off.toNat k) then
      let e := readExpireRaw s.log off.toNat
      if 0 < e && (now : Int) > e then
        match checkCompaction (tombstoneAt s idx off) now with
        | .error msg => .error msg
        | .ok (s', evs) => .ok (false, s', evs ++ [.expire k])
      else .ok (true, s, [])
    else
      let idx' := (idx + 1) &&& (s.capacity - 1)
      if idx' == start then .ok (false, s, [])
      else hasGo s k hashI now start fuel idx'

/-- The `has` method: same probing and lazy expiry as `get`, returning a
boolean; the hot cache is NOT consulted. -/
def hasOp (hasher : Bytes → Int) (s : EngineState) (k : Bytes) (now : Nat) :
    Except String (Bool × EngineState × List Event) :=
  let hashI := int32ofInt (hasher k)
  let start := hashI.natAbs &&& (s.capacity - 1)
  hasGo s k hashI now start s.capacity start

/-- The probe loop of `delete`. -/
def deleteGo (s : EngineState) (k : Bytes) (hashI : Int) (now : Nat)
    (start : Nat) :
    Nat → Nat → Except String (Bool × EngineState × List Event)
  | 0, _ => .ok (false, s, [])
  | fuel + 1, idx =>
    let off := s.offsets.getD idx 0
    if off == 0 then .ok (false, s, [])
    else if 0 < off && (s.hashes.getD idx 0 == hashI &&
        keyMatchesAt s.log off.toNat k) then
      let e := readExpireRaw s.log off.toNat
      if 0 < e && (now : Int) > e then
        match checkCompaction (tombstoneAt s idx off) now with
        | .error msg => .error msg
        | .ok (s', evs) => .ok (false, s', evs ++ [.expire k])
      else
        match checkCompaction (tombstoneAt s idx off) now with
        | .error msg => .error msg
        | .ok (s', evs) => .ok (true, s', evs ++ [.deleteEv k])
    else
      let idx' := (idx + 1) &&& (s.capacity - 1)
      if idx' == start then .ok (false, s, [])
      else deleteGo s k hashI now start fuel idx'

/-- Removal of a key from the hot cache at the start of `delete`. -/
def dropCached (s : EngineState) (k : Bytes) : EngineState :=
  match s.cache with
  | some c => { s with cache := some (cacheDelete c k) }
  | none => s

/-- The `delete` method: drop the key from the hot cache, then probe; an
expired match is lazily tombstoned and reported as absent, a live match is
tombstoned and reported as removed. -/
def deleteOp (hasher : Bytes → Int) (s : EngineState) (k : Bytes) (now : Nat) :
    Except String (Bool × EngineState × List Event) :=
  let s0 := dropCached s k
  let hashI := int32ofInt (hasher k)
  let start := hashI.natAbs &&& (s0.capacity - 1)
  deleteGo s0 k hashI now start s0.capacity start

/-- Result of the `put` helper: success, buffer overflow ("Out of memory
(Buffer full)") or table overflow ("Hash table full").  The state carried by
the failure constructors records the mutations `put` performed before
throwing (an in-place update flips the old record and tombstones its slot
BEFORE the free-space check). -/
inductive PutRes where
  | ok (s : EngineState)
  | bufFull (s : EngineState)
  | tableFull (s : EngineState)
  deriving Repr

/-- The probe loop of `put` (single-page fast path): remember the earliest
tombstone; on an empty slot insert there (or at the tombstone); on a match
flip the old record, tombstone the slot, then append the new record. -/
def putGo (s : EngineState) (k v : Bytes) (hashI : Int) (e : Nat)
    (start : Nat) : Nat → Nat → Option Nat → PutRes
  | 0, _, _ => .tableFull s
  | fuel + 1, idx, tomb =>
    let off := s.offsets.getD idx 0
    if off == 0 then
      let finalIndex := tomb.getD idx
      let esz := entrySize k v
      if s.log.length + esz > s.bufLen then .bufFull s
      else
        .ok { s with log := s.log ++ entryBytes hashI e k v,
                     hashes := s.hashes.set finalIndex hashI,
                     offsets := s.offsets.set finalIndex (s.log.length : Int),
                     size := s.size + 1 }
    else if off < 0 then
      let tomb' := if tomb.isNone then some idx else tomb
      let idx' := (idx + 1) &&& (s.capacity - 1)
      if idx' == start then .tableFull s
      else putGo s k v hashI e start fuel idx' tomb'
    else if s.hashes.getD idx 0 == hashI && keyMatchesAt s.log off.toNat k then
      let s1 : EngineState :=
        { s with log := s.log.set off.toNat 2,
                 offsets := s.offsets.set idx (-off),
                 deletedCount := s.deletedCount + 1 }
      let esz := entrySize k v
      if s1.log.length + esz > s1.bufLen then .bufFull s1
      else
        .ok { s1 with log := s1.log ++ entryBytes hashI e k v,
                      hashes := s1.hashes.set idx hashI,
                      offsets := s1.offsets.set idx (s1.log.length : Int) }
    else
      let idx' := (idx + 1) &&& (s.capacity - 1)
      if idx' == start then .tableFull s
      else putGo s k v hashI e start fuel idx' tomb

/-- The private `put` method. -/
def putCall (s : EngineState) (k v : Bytes) (hashI : Int) (e : Nat) : PutRes :=
  let start := hashI.natAbs &&& (s.capacity - 1)
  putGo s k v hashI e start s.capacity start none

/-- Tail of a successful `set`: emit the `set` event (after the cache's evict
events) and run the auto-compaction check. -/
def setFinish (s2 : EngineState) (k v : Bytes) (ev0 : List Event) (now : Nat) :
    Except String (EngineState × List Event) :=
  match checkCompaction s2 now with
  | .error msg => .error msg
  | .ok (s3, ev2) => .ok (s3, ev0 ++ [.setEv k v] ++ ev2)

/-- The buffer-full retry loop of `set`: up to 3 rounds of doubling the data
buffer and retrying `put`. -/
def setRetry (k v : Bytes) (hashI : Int) (e : Nat) (ev0 : List Event)
    (now : Nat) : Nat → EngineState → Except String (EngineState × List Event)
  | 0, _ => .error "RogueMap: Out of memory (Buffer full)"
  | n + 1, t =>
    match resizeOp t t.capacity (t.bufLen * 2) with
    | .error msg => .error msg
    | .ok t1 =>
      match putCall t1 k v hashI e with
      | .ok t2 => setFinish t2 k v ev0 now
      | .bufFull t2 => setRetry k v hashI e ev0 now n t2
      | .tableFull _ => .error "RogueMap: Hash table full"

/-- The `set` method: update the hot cache, resize when the live load factor
reaches 0.75, compute the expiry stamp, run `put` with its retry/fallback
error handling, then the auto-compaction check. -/
def setOp (hasher : Bytes → Int) (s : EngineState) (k v : Bytes)
    (ttlOpt : Option Nat) (now : Nat) :
    Except String (EngineState × List Event) :=
  let cacheRes : Option (List (Bytes × Bytes)) × List Event :=
    match s.cache with
    | some c =>
      let r := cacheUpdateOnSet c s.cacheSize k v
      (some r.1, r.2)
    | none => (none, [])
  let s0 := { s with cache := cacheRes.1 }
  let ev0 := cacheRes.2
  let resized : Except String EngineState :=
    if s0.size * 4 ≥ s0.capacity * 3 then
      resizeOp s0 (s0.capacity * 2) (s0.bufLen * 2)
    else .ok s0
  match resized with
  | .error msg => .error msg
  | .ok s1 =>
    let hashI := int32ofInt (hasher k)
    let ttl := ttlOpt.getD s.defaultTTL
    let e := if ttl > 0 then now + ttl else 0
    match putCall s1 k v hashI e with
    | .ok s2 => setFinish s2 k v ev0 now
    | .bufFull s2 => setRetry k v hashI e ev0 now 3 s2
    | .tableFull s2 =>
      match resizeOp s2 (s2.capacity * 2) (s2.bufLen * 2) with
      | .error msg => .error msg
      | .ok s3 =>
        match putCall s3 k v hashI e with
        | .ok s4 => setFinish s4 k v ev0 now
        | .bufFull _ => .error "RogueMap: Out of memory (Buffer full)"
        | .tableFull _ => .error "RogueMap: Hash table full"

/-- The `clear` method. -/
def clearOp (s : EngineState) : EngineState × List Event :=
  ({ s with cache := s.cache.map fun _ => [],
            hashes := List.replicate s.capacity 0,
            offsets := List.replicate s.capacity 0,
            log := [0], size := 0, deletedCount := 0 }, [.clearEv])

/-- The iteration loop of `entries()` (single-page fast path): scan the log,
yield ACTIVE non-expired records.  The expiry stamp is read with the signed
`|` chains, as in the source. -/
def entriesGo (log : Bytes) (limit now : Nat) : Nat → Nat → List (Bytes × Bytes)
  | 0, _ => []
  | fuel + 1, cursor =>
    if cursor < limit then
      let keySize := (readKeyLenI log cursor).toNat
      let valSize := (readValLenI log cursor).toNat
      let entryLen := 21 + keySize + valSize
      let rest := entriesGo log limit now fuel (cursor + entryLen)
      if log.getD cursor 0 == 1 then
        let e := readExpireRaw log cursor
        if e == 0 || (now : Int) ≤ e then
          (readBytes log (cursor + 21) keySize,
            readBytes log (cursor + 21 + keySize) valSize) :: rest
        else rest
      else rest
    else []

/-- The `entries()` iterator, materialized as a list. -/
def entriesList (s : EngineState) (now : Nat) : List (Bytes × Bytes) :=
  entriesGo s.log s.log.length now s.log.length 1

/-- ASCII bytes of the magic string "ROGUE". -/
def rogueMagic : Bytes := [82, 79, 71, 85, 69]

/-- Bucket word of the snapshot: `Math.abs(offset)` coerced through an
`Int32Array` cell, i.e. the absolute offset reduced mod 2^32, stored
little-endian.  Offsets of magnitude ≥ 2^31 are silently wrapped. -/
def serializeBucketWord (o : Int) : Bytes := w32le (o.natAbs % 4294967296)

/-- Byte image produced by `serialize()`: magic, version 2, capacity, size,
write cursor, log length (all u32-LE), the bucket words, then the used log
prefix verbatim.  The source contains no size-limit check (its check block is
empty), so this function is total. -/
def serializeBytes (s : EngineState) : Bytes :=
  rogueMagic ++ [2] ++ w32le s.capacity ++ w32le s.size ++
    w32le s.log.length ++ w32le s.log.length ++
    (s.offsets.map serializeBucketWord).flatten ++ s.log

/-- The `serialize()` method, with the instance state it leaves behind: the
method only reads fields, so the state component is the receiver unchanged. -/
def serializeOp (s : EngineState) : Bytes × EngineState := (serializeBytes s, s)

/-- Rebuild one index slot from a snapshot bucket word: a non-zero offset is
classified by the flag byte of the record it points to (ACTIVE keeps the
positive offset, DELETED negates it), and the hash is re-read from the
record. -/
def rebuildSlot (newLog : Bytes) (off : Int) : Int × Int :=
  if off == 0 then (0, 0)
  else
    let flag := newLog.getD off.toNat 0
    if flag == 1 then (readHash newLog off.toNat, off)
    else if flag == 2 then (readHash newLog off.toNat, -off)
    else (0, 0)

/-- The private `loadFromBuffer` method: validate magic and version (throwing
with the instance untouched on mismatch), then replace the engine state with
the decoded snapshot.  `deletedCount` restarts at zero. -/
def loadFromBuffer (s : EngineState) (data : Bytes) :
    Option String × EngineState :=
  if data.take 5 ≠ rogueMagic then (some "Invalid RogueMap format", s)
  else if data.length < 6 then (some "RangeError", s)
  else if data.getD 5 0 ≠ 2 then
    (some "Unsupported RogueMap version", s)
  else
    let cap := r32le data 6
    let size := r32le data 10
    let wo := r32le data 14
    let bufLen := r32le data 18
    let newLog := readBytes data (22 + 4 * cap) wo
    let slots := (List.range cap).map fun i =>
      rebuildSlot newLog (toInt32 (r32le data (22 + 4 * i)))
    (none,
      { s with capacity := cap, hashes := slots.map fun p => p.1,
               offsets := slots.map fun p => p.2, size := size,
               log := newLog, bufLen := bufLen, deletedCount := 0 })

/-- The static `deserialize` entry point: construct a fresh engine from the
options, then load the snapshot into it. -/
def deserializeOp (data : Bytes) (capacity0 initialMemory0 cacheSize ttl : Nat) :
    Option String × EngineState :=
  loadFromBuffer (mkEngine capacity0 initialMemory0 cacheSize ttl) data

/-- Pure table lookup used to state specifications: probe, and on a match
apply the same (signed-read) expiry test that the engine applies, without any
mutation.  `getOp`/`hasOp` are proved to follow this function. -/
def tableRead (s : EngineState) (hashI : Int) (k : Bytes) (now : Nat) :
    Option Bytes :=
  match findSlot s hashI k with
  | none => none
  | some (_, off) =>
    let e := readExpireRaw s.log off.toNat
    if 0 < e && (now : Int) > e then none
    else
      some (readBytes s.log (off.toNat + 21 + k.length)
        ((readValLenI s.log off.toNat).toNat))

/-- The slot sequence `start, start+1, ...` (mod capacity) that linear probing
visits: position `j` is `(start + j) % capacity`. -/
def probeSeq (start cap : Nat) : List Nat :=
  (List.range cap).map fun j => (start + j) % cap

/-- Probe driven by an explicit slot list (specification-side formulation of
the probe loop). -/
def pathFind (offsets hashes : List Int) (log : Bytes) (hashI : Int)
    (kb : Bytes) : List Nat → Option (Nat × Int)
  | [] => none
  | idx :: rest =>
    let off := offsets.getD idx 0
    if off == 0 then none
    else if 0 < off && (hashes.getD idx 0 == hashI &&
        keyMatchesAt log off.toNat kb) then
      some (idx, off)
    else pathFind offsets hashes log hashI kb rest

/-- The insert/update probe of `put`, driven by an explicit slot list
(specification-side formulation of `putGo`). -/
def pathPut (s : EngineState) (k v : Bytes) (hashI : Int) (e : Nat) :
    List Nat → Option Nat → PutRes
  | [], _ => .tableFull s
  | idx :: rest, tomb =>
    let off := s.offsets.getD idx 0
    if off == 0 then
      let finalIndex := tomb.getD idx
      let esz := entrySize k v
      if s.log.length + esz > s.bufLen then .bufFull s
      else
        .ok { s with log := s.log ++ entryBytes hashI e k v,
                     hashes := s.hashes.set finalIndex hashI,
                     offsets := s.offsets.set finalIndex (s.log.length : Int),
                     size := s.size + 1 }
    else if off < 0 then
      let tomb' := if tomb.isNone then some idx else tomb
      pathPut s k v hashI e rest tomb'
    else if s.hashes.getD idx 0 == hashI && keyMatchesAt s.log off.toNat k then
      let s1 : EngineState :=
        { s with log := s.log.set off.toNat 2,
                 offsets := s.offsets.set idx (-off),
                 deletedCount := s.deletedCount + 1 }
      let esz := entrySize k v
      if s1.log.length + esz > s1.bufLen then .bufFull s1
      else
        .ok { s1 with log := s1.log ++ entryBytes hashI e k v,
                      hashes := s1.hashes.set idx hashI,
                      offsets := s1.offsets.set idx (s1.log.length : Int) }
    else pathPut s k v hashI e rest tomb

/-- Observable result of one engine operation. -/
inductive Out where
  | gotten (v : Option Bytes)
  | answered (b : Bool)
  | done
  deriving Repr, DecidableEq

/-- An operation request, with the clock value at which it is issued. -/
inductive Op where
  | setK (k v : Bytes) (ttl : Option Nat) (now : Nat)
  | getK (k : Bytes) (now : Nat)
  | hasK (k : Bytes) (now : Nat)
  | delK (k : Bytes) (now : Nat)
  | clearK
  deriving Repr, DecidableEq

/-- Run one operation. -/
def runOp (hasher : Bytes → Int) (s : EngineState) :
    Op → Except String (Out × EngineState)
  | .setK k v ttl now => (setOp hasher s k v ttl now).map fun r => (.done, r.1)
  | .getK k now => (getOp hasher s k now).map fun r => (.gotten r.1, r.2.1)
  | .hasK k now => (hasOp hasher s k now).map fun r => (.answered r.1, r.2.1)
  | .delK k now => (deleteOp hasher s k now).map fun r => (.answered r.1, r.2.1)
  | .clearK => .ok (.done, (clearOp s).1)

/-- Run a sequence of operations, collecting the observable results. -/
def runOps (hasher : Bytes → Int) (s : EngineState) :
    List Op → Except String (List Out × EngineState)
  | [] => .ok ([], s)
  | op :: rest =>
    match runOp hasher s op with
    | .error msg => .error msg
    | .ok (o, s') =>
      match runOps hasher s' rest with
      | .error msg => .error msg
      | .ok (os, s'') => .ok (o :: os, s'')

/-- Observable results only (discarding the final state and collapsing an
error to `none`). -/
def runOuts (hasher : Bytes → Int) (s : EngineState) (ops : List Op) :
    Option (List Out) :=
  match runOps hasher s ops with
  | .error _ => none
  | .ok (os, _) => some os

/-- What `get`'s loop does once the probe stops on a matching slot. -/
def getFound (s : EngineState) (k : Bytes) (now : Nat) (idx : Nat) (off : Int) :
    Except String (Option Bytes × EngineState × List Event) :=
  let e := readExpireRaw s.log off.toNat
  if 0 < e && (now : Int) > e then
    match checkCompaction (tombstoneAt s idx off) now with
    | .error msg => .error msg
    | .ok (s', evs) => .ok (none, s', evs ++ [.expire k])
  else
    let vl := (readValLenI s.log off.toNat).toNat
    let v := readBytes s.log (off.toNat + 21 + k.length) vl
    match s.cache with
    | some c =>
      let r := cacheInsertRead c s.cacheSize k v
      .ok (some v, { s with cache := some r.1 }, r.2)
    | none => .ok (some v, s, [])

/-- What `has`'s loop does once the probe stops on a matching slot. -/
def hasFound (s : EngineState) (k : Bytes) (now : Nat) (idx : Nat) (off : Int) :
    Except String (Bool × EngineState × List Event) :=
  let e := readExpireRaw s.log off.toNat
  if 0 < e && (now : Int) > e then
    match checkCompaction (tombstoneAt s idx off) now with
    | .error msg => .error msg
    | .ok (s', evs) => .ok (false, s', evs ++ [.expire k])
  else .ok (true, s, [])

/-- What `delete`'s loop does once the probe stops on a matching slot. -/
def deleteFound (s : EngineState) (k : Bytes) (now : Nat) (idx : Nat)
    (off : Int) : Except String (Bool × EngineState × List Event) :=
  let e := readExpireRaw s.log off.toNat
  if 0 < e && (now : Int) > e then
    match checkCompaction (tombstoneAt s idx off) now with
    | .error msg => .error msg
    | .ok (s', evs) => .ok (false, s', evs ++ [.expire k])
  else
    match checkCompaction (tombstoneAt s idx off) now with
    | .error msg => .error msg
    | .ok (s', evs) => .ok (true, s', evs ++ [.deleteEv k])

/-- Hasher returning a constant zero (used for concrete runs). -/
def zeroHasher : Bytes → Int := fun _ => 0

/-- Hasher returning a constant -1 (a caller-supplied hasher with a negative
32-bit value). -/
def negHasher : Bytes → Int := fun _ => -1

/-- Hasher reading the first byte of the key. -/
def byteHasher : Bytes → Int := fun b => (b.getD 0 0 : Nat)

/-- A small fresh engine: 4 buckets, 4096-byte log, no cache, no TTL. -/
def eng4 : EngineState := mkEngine 4 4096 0 0

/-- A small fresh engine with a 1-entry hot cache. -/
def eng4c : EngineState := mkEngine 4 4096 1 0

/-- Decidable well-formedness required for an exact snapshot round-trip:
32-bit-representable header fields, index arrays sized to the capacity, and
every non-empty slot pointing (within int32 range) at a byte of the log whose
flag value matches the offset's sign, with the slot's hash re-readable from
the record; empty slots carry hash 0.  These are exactly the facts
`loadFromBuffer` relies on to rebuild the index from `serialize()` output. -/
def RoundTripWF (s : EngineState) : Bool :=
  decide (s.capacity < 4294967296) && decide (s.size < 4294967296) &&
    decide (s.log.length < 4294967296) &&
    (s.offsets.length == s.capacity) && (s.hashes.length == s.capacity) &&
    ((List.range s.capacity).all fun i =>
      let off := s.offsets.getD i 0
      if off == 0 then s.hashes.getD i 0 == 0
      else
        decide (off.natAbs < s.log.length) &&
          decide (off.natAbs < 2147483648) &&
          (if 0 < off then s.log.getD off.toNat 0 == 1
           else s.log.getD off.natAbs 0 == 2) &&
          (readHash s.log off.natAbs == s.hashes.getD i 0))

/-- A populated engine with one live record and one tombstone (two inserts
and a delete on `eng4`), used to witness the snapshot round-trip. -/
def c1State : EngineState :=
  match setOp byteHasher eng4 [7] [8] none 5 with
  | .ok p =>
    match setOp byteHasher p.1 [3, 3] [9] none 6 with
    | .ok q =>
      match deleteOp byteHasher q.1 [7] 7 with
      | .ok r => r.2.1
      | .error _ => q.1
    | .error _ => p.1
  | .error _ => eng4

/-- The state produced by `set([7], [8])` on `eng4` (a computed run, used to
witness the load-factor theorem on concrete inputs). -/
def c4after : EngineState :=
  { capacity := 4, hashes := [0, 0, 0, 0], offsets := [1, 0, 0, 0],
    log := [0, 1, 0, 0, 0, 0, 0, 0, 0, 0, 0, 0, 0, 0, 1, 0, 0, 0, 1, 0, 0, 0,
      7, 8],
    bufLen := 4096, size := 1, deletedCount := 0, cache := none,
    cacheSize := 0, defaultTTL := 0, autoCompact := true, thresholdNum := 3,
    thresholdDen := 10, minSize := 1000 }

/-- State after `set([7], [9], ttl 100)` at t=1000 on the cached engine. -/
def c2State : EngineState :=
  match setOp zeroHasher eng4c [7] [9] (some 100) 1000 with
  | .ok p => p.1
  | .error _ => eng4c

/-- A crafted engine whose single record carries ExpireAt = 2^31 (a snapshot
can contain any expiry stamp). -/
def c3State : EngineState :=
  { eng4 with log := [0] ++ entryBytes 0 2147483648 [7] [9],
              offsets := [1, 0, 0, 0], size := 1 }

/-- Snapshot bytes encoding `c3State`. -/
def c3Bytes : Bytes := serializeBytes c3State

/-- The engine obtained by deserializing `c3Bytes`. -/
def c3Loaded : EngineState := (deserializeOp c3Bytes 4 4096 0 0).2

/-- State after four `set` calls updating the same key on `eng4`. -/
def c4State : EngineState :=
  match runOps zeroHasher eng4
      [.setK [1] [2] none 5, .setK [1] [2] none 5, .setK [1] [2] none 5,
        .setK [1] [2] none 5] with
  | .ok p => p.2
  | .error _ => eng4

/-- A single-bucket engine whose bucket offset exceeds the 32-bit range that
the snapshot bucket words can carry. -/
def c5State : EngineState := { mkEngine 1 16 0 0 with offsets := [2147483649] }

/-- A crafted engine holding the key [7] (hash -1) at slot 3 = (-1) & 3,
with slots 1 and 2 empty. -/
def c7State : EngineState :=
  { eng4 with log := [0] ++ entryBytes (-1) 0 [7] [9],
              offsets := [0, 0, 0, 1], hashes := [0, 0, 0, -1], size := 1 }

/-- State after `set([7], [9], ttl 100)` at t=1000 on the uncached engine:
holds one record with ExpireAt = 1100. -/
def expiryState : EngineState :=
  match setOp zeroHasher eng4 [7] [9] (some 100) 1000 with
  | .ok p => p.1
  | .error _ => eng4

/-! ### Correspondence between the per-operation probe loops and `findGo` -/

theorem getGo_eq_find (s : EngineState) (k : Bytes) (hashI : Int) (now : Nat)
    (start fuel idx : Nat) :
    getGo s k hashI now start fuel idx =
      match findGo s.offsets s.hashes s.log s.capacity hashI k start fuel idx with
      | none => .ok (none, s, [])
      | some (i, off) => getFound s k now i off := by
  induction fuel generalizing idx with
  | zero => rfl
  | succ n ih =>
    simp only [getGo, findGo]
    split_ifs with h0 h1 h2 h3
    · rfl
    · simp only [getFound]
      rw [if_pos h2]
    · simp only [getFound]
      rw [if_neg h2]
    · rfl
    · exact ih _

theorem hasGo_eq_find (s : EngineState) (k : Bytes) (hashI : Int) (now : Nat)
    (start fuel idx : Nat) :
    hasGo s k hashI now start fuel idx =
      match findGo s.offsets s.hashes s.log s.capacity hashI k start fuel idx with
      | none => .ok (false, s, [])
      | some (i, off) => hasFound s k now i off := by
  induction fuel generalizing idx with
  | zero => rfl
  | succ n ih =>
    simp only [hasGo, findGo]
    split_ifs with h0 h1 h2 h3
    · rfl
    · simp only [hasFound]
      rw [if_pos h2]
    · simp only [hasFound]
      rw [if_neg h2]
    · rfl
    · exact ih _

theorem deleteGo_eq_find (s : EngineState) (k : Bytes) (hashI : Int)
    (now : Nat) (start fuel idx : Nat) :
    deleteGo s k hashI now start fuel idx =
      match findGo s.offsets s.hashes s.log s.capacity hashI k start fuel idx with
      | none => .ok (false, s, [])
      | some (i, off) => deleteFound s k now i off := by
  induction fuel generalizing idx with
  | zero => rfl
  | succ n ih =>
    simp only [deleteGo, findGo]
    split_ifs with h0 h1 h2 h3
    · rfl
    · simp only [deleteFound]
      rw [if_pos h2]
    · simp only [deleteFound]
      rw [if_neg h2]
    · rfl
    · exact ih _

theorem findSlot_dropCached (s : EngineState) (k' : Bytes) (hashI : Int)
    (kb : Bytes) : findSlot (dropCached s k') hashI kb = findSlot s hashI kb := by
  cases hc : s.cache <;> simp [dropCached, findSlot, hc]

theorem dropCached_fields (s : EngineState) (k : Bytes) :
    (dropCached s k).size = s.size ∧
      (dropCached s k).deletedCount = s.deletedCount ∧
      (dropCached s k).log = s.log ∧
      (dropCached s k).hashes = s.hashes ∧
      (dropCached s k).offsets = s.offsets ∧
      (dropCached s k).capacity = s.capacity ∧
      (dropCached s k).bufLen = s.bufLen := by
  cases hc : s.cache <;> simp [dropCached, hc]

theorem add_mod_eq_left_iff (start x cap : Nat) (h : start < cap) :
    (start + x) % cap = start ↔ x % cap = 0 := by
  have hc : 0 < cap := Nat.lt_of_le_of_lt (Nat.zero_le _) h
  rw [Nat.add_mod, Nat.mod_eq_of_lt h]
  have hylt : x % cap < cap := Nat.mod_lt _ hc
  constructor
  · intro heq
    by_cases hlt : start + x % cap < cap
    · rw [Nat.mod_eq_of_lt hlt] at heq
      omega
    · have hsub : (start + x % cap) % cap = start + x % cap - cap := by
        rw [Nat.mod_eq_sub_mod (by omega)]
        exact Nat.mod_eq_of_lt (by omega)
      rw [hsub] at heq
      omega
  · intro h0
    rw [h0, Nat.add_zero]
    exact Nat.mod_eq_of_lt h

theorem probeSeq_drop (start cap j : Nat) (hj : j < cap) :
    (probeSeq start cap).drop j =
      ((start + j) % cap) :: (probeSeq start cap).drop (j + 1) := by
  have hlen : j < (probeSeq start cap).length := by simpa [probeSeq] using hj
  rw [List.drop_eq_getElem_cons hlen]
  congr 1
  simp [probeSeq]

theorem probeSeq_drop_len (start cap : Nat) :
    (probeSeq start cap).drop cap = [] := by
  apply List.drop_eq_nil_of_le
  simp [probeSeq]

theorem probe_step (start cap j m : Nat) (hcap : cap = 2 ^ m) :
    ((start + j) % cap + 1) &&& (cap - 1) = (start + (j + 1)) % cap := by
  rw [hcap, Nat.and_pow_two_sub_one_eq_mod, Nat.mod_add_mod, Nat.add_assoc]

theorem findGo_eq_pathFind_aux (offsets hashes : List Int) (log : Bytes)
    (cap : Nat) (hashI : Int) (kb : Bytes) (start m : Nat)
    (hcap : cap = 2 ^ m) (hstart : start < cap) :
    ∀ n j, j + n = cap →
      findGo offsets hashes log cap hashI kb start n ((start + j) % cap) =
        pathFind offsets hashes log hashI kb ((probeSeq start cap).drop j) := by
  intro n
  induction n with
  | zero =>
    intro j hj
    have hj' : j = cap := by omega
    rw [hj', probeSeq_drop_len]
    rfl
  | succ n ih =>
    intro j hj
    have hjlt : j < cap := by omega
    rw [probeSeq_drop start cap j hjlt]
    simp only [findGo, pathFind, probe_step start cap j m hcap]
    split_ifs with h0 h1 hw
    · rfl
    · rfl
    · have hw' : (start + (j + 1)) % cap = start := by
        simpa using hw
      have : (j + 1) % cap = 0 := (add_mod_eq_left_iff start (j + 1) cap hstart).mp hw'
      have hj1 : j + 1 = cap := by
        rcases Nat.lt_or_ge (j + 1) cap with hlt | hge
        · rw [Nat.mod_eq_of_lt hlt] at this
          omega
        · omega
      rw [hj1, probeSeq_drop_len]
      rfl
    · exact ih (j + 1) (by omega)

theorem findSlot_eq_pathFind (s : EngineState) (hashI : Int) (kb : Bytes)
    (m : Nat) (hcap : s.capacity = 2 ^ m) :
    findSlot s hashI kb =
      pathFind s.offsets s.hashes s.log hashI kb
        (probeSeq (hashI.natAbs &&& (s.capacity - 1)) s.capacity) := by
  have hpos : 0 < s.capacity := by
    rw [hcap]; exact Nat.pos_pow_of_pos m (by norm_num)
  have hstart : hashI.natAbs &&& (s.capacity - 1) < s.capacity := by
    rw [hcap, Nat.and_pow_two_sub_one_eq_mod]
    exact Nat.mod_lt _ (by rw [← hcap]; exact hpos)
  have h := findGo_eq_pathFind_aux s.offsets s.hashes s.log s.capacity hashI kb
    (hashI.natAbs &&& (s.capacity - 1)) m hcap hstart s.capacity 0 (by omega)
  simpa [findSlot, Nat.mod_eq_of_lt hstart] using h

theorem putGo_eq_pathPut_aux (s : EngineState) (k v : Bytes) (hashI : Int)
    (e : Nat) (start m : Nat) (hcap : s.capacity = 2 ^ m)
    (hstart : start < s.capacity) :
    ∀ n j tomb, j + n = s.capacity →
      putGo s k v hashI e start n ((start + j) % s.capacity) tomb =
        pathPut s k v hashI e ((probeSeq start s.capacity).drop j) tomb := by
  intro n
  induction n with
  | zero =>
    intro j tomb hj
    have hj' : j = s.capacity := by omega
    rw [hj', probeSeq_drop_len]
    rfl
  | succ n ih =>
    intro j tomb hj
    have hjlt : j < s.capacity := by omega
    rw [probeSeq_drop start s.capacity j hjlt]
    simp only [putGo, pathPut, probe_step start s.capacity j m hcap]
    split_ifs with h1 h2 h3 h4 h5 h6 h7 h8 h9
    all_goals try rfl
    all_goals try (exact ih (j + 1) _ (by omega))
    all_goals
      (have hww : ((start + (j + 1)) % s.capacity == start) = true := by
        assumption
       have hw' : (start + (j + 1)) % s.capacity = start := by simpa using hww
       have hmod : (j + 1) % s.capacity = 0 :=
         (add_mod_eq_left_iff start (j + 1) s.capacity hstart).mp hw'
       have hj1 : j + 1 = s.capacity := by
         rcases Nat.lt_or_ge (j + 1) s.capacity with hlt | hge
         · rw [Nat.mod_eq_of_lt hlt] at hmod
           omega
         · omega
       rw [hj1, probeSeq_drop_len]
       rfl)

theorem putCall_eq_pathPut (s : EngineState) (k v : Bytes) (hashI : Int)
    (e : Nat) (m : Nat) (hcap : s.capacity = 2 ^ m) :
    putCall s k v hashI e =
      pathPut s k v hashI e
        (probeSeq (hashI.natAbs &&& (s.capacity - 1)) s.capacity) none := by
  have hpos : 0 < s.capacity := by
    rw [hcap]; exact Nat.pos_pow_of_pos m (by norm_num)
  have hstart : hashI.natAbs &&& (s.capacity - 1) < s.capacity := by
    rw [hcap, Nat.and_pow_two_sub_one_eq_mod]
    exact Nat.mod_lt _ (by rw [← hcap]; exact hpos)
  have h := putGo_eq_pathPut_aux s k v hashI e
    (hashI.natAbs &&& (s.capacity - 1)) m hcap hstart s.capacity 0 none (by omega)
  simpa [putCall, Nat.mod_eq_of_lt hstart] using h

/-! ### Claim theorems -/

/-- C10.  serialize() is a pure observation: it returns the snapshot bytes and
leaves every component of the engine state unchanged, so any operation
performed afterwards behaves exactly as without the call. -/
theorem serialize_pure (s : EngineState) :
    (serializeOp s).2 = s ∧ (serializeOp s).1 = serializeBytes s ∧
      (∀ hasher k now, getOp hasher (serializeOp s).2 k now = getOp hasher s k now) ∧
      (∀ hasher k v ttl now,
        setOp hasher (serializeOp s).2 k v ttl now = setOp hasher s k v ttl now) ∧
      (∀ now, entriesList (serializeOp s).2 now = entriesList s now) ∧
      (serializeOp s).2.size = s.size :=
  ⟨rfl, rfl, fun _ _ _ => rfl, fun _ _ _ _ _ => rfl, fun _ => rfl, rfl⟩

/-- C6.  Restoring from a blob whose magic is not "ROGUE" or whose version
byte is not 2 raises an error with the engine state untouched. -/
theorem load_invalid_snapshot_atomic (s : EngineState) (d : Bytes)
    (h : d.take 5 ≠ rogueMagic ∨ d.getD 5 0 ≠ 2) :
    (loadFromBuffer s d).1.isSome = true ∧ (loadFromBuffer s d).2 = s := by
  unfold loadFromBuffer
  split_ifs with h1 h2 h3
  · exact ⟨rfl, rfl⟩
  · exact ⟨rfl, rfl⟩
  · exact ⟨rfl, rfl⟩
  · rcases h with h | h
    · exact absurd h h1
    · exact absurd h h3

/-- Witness for C6 at a concrete garbage blob and a concrete engine. -/
theorem load_invalid_snapshot_atomic_witness :
    (([] : Bytes).take 5 ≠ rogueMagic ∨ ([] : Bytes).getD 5 0 ≠ 2) ∧
      ((loadFromBuffer eng4 []).1.isSome = true ∧
        (loadFromBuffer eng4 []).2 = eng4) :=
  ⟨by decide, load_invalid_snapshot_atomic eng4 [] (by decide)⟩

/-- C5 (bug evidence).  serialize() never refuses: it is a total function of
the state, and for an engine whose bucket offset exceeds 2^31 it silently
stores the offset wrapped through a 32-bit cell: the serialized image of
`c5State` (offset 2^31 + 1) carries a bucket word that decodes back to
-(2^31 - 1), not 2^31 + 1. -/
theorem serialize_wraps_oversized_offsets :
    c5State.offsets = [(2147483649 : Int)] ∧
      readBytes (serializeBytes c5State) 22 4 = serializeBucketWord 2147483649 ∧
      toInt32 (r32le (serializeBytes c5State) 22) = -2147483647 ∧
      toInt32 (r32le (serializeBytes c5State) 22) ≠ (2147483649 : Int) := by
  decide

/-- C2 (counterexample).  With the hot cache enabled, a cached entry whose
record has expired makes `get` return the stale value while `has` returns
false: after `set([7],[9], ttl 100)` at t=1000, at t=2000 `get` answers
`some [9]` (from the cache, engine state unchanged but for the cache order)
and `has` answers `false`, so `has(K) ⇔ get(K) ≠ not-found` fails. -/
theorem has_get_cache_ttl_counterexample :
    setOp zeroHasher eng4c [7] [9] (some 100) 1000 =
        .ok (c2State, [Event.setEv [7] [9]]) ∧
      ((getOp zeroHasher c2State [7] 2000).map fun r => r.1) = .ok (some [9]) ∧
      ((hasOp zeroHasher c2State [7] 2000).map fun r => r.1) = .ok false := by
  decide

/-- C8 (bug evidence).  The same operation sequence issued to an engine with
`cacheSize = 1` and to one with the cache disabled yields different observable
results once a TTL entry expires: the cached engine keeps answering the stale
value.  The hot cache therefore does affect observable semantics. -/
theorem cache_ttl_divergence :
    runOuts zeroHasher (mkEngine 4 4096 1 0)
        [.setK [7] [9] (some 100) 1000, .getK [7] 2000] =
      some [.done, .gotten (some [9])] ∧
      runOuts zeroHasher (mkEngine 4 4096 0 0)
        [.setK [7] [9] (some 100) 1000, .getK [7] 2000] =
      some [.done, .gotten none] := by
  decide

/-- C3 (counterexample).  A record whose stored ExpireAt field is 2^31
(non-zero, and exceeded by now = 2^31 + 52) is NOT expired by `get`: the
single-page path reads the low half of the field as a signed 32-bit value, so
the reconstructed stamp is -2^31, the `expireAt > 0` guard fails, and `get`
returns the value with no state change and no event.  The state is reachable:
it is the result of deserializing the blob `c3Bytes`. -/
theorem expiry_signed_read_counterexample :
    (deserializeOp c3Bytes 4 4096 0 0).1 = none ∧
      c3Loaded.offsets.getD 0 0 = 1 ∧
      readExpireU c3Loaded.log 1 = 2147483648 ∧
      readExpireRaw c3Loaded.log 1 = -2147483648 ∧
      (2147483700 : Nat) > 2147483648 ∧
      getOp zeroHasher c3Loaded [7] 2147483700 = .ok (some [9], c3Loaded, []) := by
  decide

/-- C4 (counterexample).  Four successful `set` calls updating one key on a
4-bucket engine leave live = 1 and tombstones = 3: the combined load factor
(live + tombstones) / buckets = 1 exceeds 0.75, because the resize trigger
only counts live entries and in-place updates accumulate tombstones. -/
theorem load_factor_tombstone_counterexample :
    runOps zeroHasher eng4
        [.setK [1] [2] none 5, .setK [1] [2] none 5, .setK [1] [2] none 5,
          .setK [1] [2] none 5] = .ok ([.done, .done, .done, .done], c4State) ∧
      c4State.size = 1 ∧ c4State.deletedCount = 3 ∧ c4State.capacity = 4 ∧
      (c4State.size + c4State.deletedCount) * 4 > 3 * c4State.capacity := by
  decide

/-- C7 (counterexample).  With a caller-supplied hasher returning -1, probing
starts at `Math.abs(-1) & 3 = 1`, not at the claimed `h & mask`, which for
h = -1 (all bits set) is 3.  On `c7State`, whose record for key [7] sits in
slot 3 with matching hash -1 while slots 1 and 2 are empty, `get` misses the
key entirely. -/
theorem probe_start_abs_counterexample :
    int32ofInt (negHasher [7]) = -1 ∧
      ((int32ofInt (negHasher [7])).natAbs &&& (c7State.capacity - 1)) = 1 ∧
      ((-1 : Int).emod 4294967296).toNat &&& (c7State.capacity - 1) = 3 ∧
      c7State.offsets.getD 3 0 = 1 ∧
      c7State.hashes.getD 3 0 = int32ofInt (negHasher [7]) ∧
      keyMatchesAt c7State.log 1 [7] = true ∧
      readExpireRaw c7State.log 1 = 0 ∧
      getOp negHasher c7State [7] 0 = .ok (none, c7State, []) := by
  decide

/-- C2 (amended).  With the hot cache disabled, `has(K)` is true exactly when
`get(K)` returns a value: both run the same probe and the same lazy-expiry
step on the same state. -/
theorem has_iff_get_cache_disabled (hasher : Bytes → Int) (s : EngineState)
    (k : Bytes) (now : Nat) (h : s.cache = none) :
    ((getOp hasher s k now).map fun r => r.1.isSome) =
      ((hasOp hasher s k now).map fun r => r.1) := by
  simp only [getOp, hasOp, h, getGo_eq_find, hasGo_eq_find]
  cases findGo s.offsets s.hashes s.log s.capacity (int32ofInt (hasher k)) k
      ((int32ofInt (hasher k)).natAbs &&& (s.capacity - 1)) s.capacity
      ((int32ofInt (hasher k)).natAbs &&& (s.capacity - 1)) with
  | none => rfl
  | some p =>
    obtain ⟨i, off⟩ := p
    simp only [getFound, hasFound]
    split_ifs with he
    · cases checkCompaction (tombstoneAt s i off) now with
      | error msg => rfl
      | ok pr => rfl
    · rw [h]
      rfl

/-- Witness for the amended C2 at a concrete state: the uncached engine after
one set, probed for the present key and for an absent key. -/
theorem has_iff_get_cache_disabled_witness :
    c4State.cache = none ∧
      ((getOp zeroHasher c4State [1] 6).map fun r => r.1.isSome) =
        ((hasOp zeroHasher c4State [1] 6).map fun r => r.1) :=
  ⟨by decide, has_iff_get_cache_disabled zeroHasher c4State [1] 6 (by decide)⟩

/-- C9.  delete on an absent key (probe ends at an empty slot or wraps without
any match) returns false, emits nothing, and leaves live count, tombstone
count, write cursor, both index arrays and the log unchanged (only the hot
cache forgets the key). -/
theorem delete_absent_noop (hasher : Bytes → Int) (s : EngineState) (k : Bytes)
    (now : Nat) (h : findSlot s (int32ofInt (hasher k)) k = none) :
    deleteOp hasher s k now = .ok (false, dropCached s k, []) ∧
      (dropCached s k).size = s.size ∧
      (dropCached s k).deletedCount = s.deletedCount ∧
      (dropCached s k).log = s.log ∧
      (dropCached s k).hashes = s.hashes ∧
      (dropCached s k).offsets = s.offsets := by
  have hfind : findSlot (dropCached s k) (int32ofInt (hasher k)) k = none := by
    rw [findSlot_dropCached]; exact h
  have hfields := dropCached_fields s k
  refine ⟨?_, hfields.1, hfields.2.1, hfields.2.2.1, hfields.2.2.2.1,
    hfields.2.2.2.2.1⟩
  simp only [deleteOp, deleteGo_eq_find]
  have : findGo (dropCached s k).offsets (dropCached s k).hashes
      (dropCached s k).log (dropCached s k).capacity (int32ofInt (hasher k)) k
      ((int32ofInt (hasher k)).natAbs &&& ((dropCached s k).capacity - 1))
      (dropCached s k).capacity
      ((int32ofInt (hasher k)).natAbs &&& ((dropCached s k).capacity - 1)) =
      none := hfind
  rw [this]

/-- Witness for C9: deleting a key from a fresh engine. -/
theorem delete_absent_noop_witness :
    findSlot eng4 (int32ofInt (zeroHasher [3])) [3] = none ∧
      (deleteOp zeroHasher eng4 [3] 50 = .ok (false, dropCached eng4 [3], []) ∧
        (dropCached eng4 [3]).size = eng4.size ∧
        (dropCached eng4 [3]).deletedCount = eng4.deletedCount ∧
        (dropCached eng4 [3]).log = eng4.log ∧
        (dropCached eng4 [3]).hashes = eng4.hashes ∧
        (dropCached eng4 [3]).offsets = eng4.offsets) :=
  ⟨by decide, delete_absent_noop zeroHasher eng4 [3] 50 (by decide)⟩

/-- C7 (amended).  Probing starts at `|h| & mask` (the absolute value of the
32-bit hash), with `h = hasher(key)` and `mask = bucket_count - 1`, and
advances by `next = (cur + 1) & mask` until a match, an empty slot, or
wraparound: the shared probe equals the scan of the explicit slot sequence
`start, start+1, ... (mod capacity)`, and `get` (on a cache miss), `has`,
`delete` and `put` are all driven by that probe. -/
theorem probe_follows_linear_sequence (hasher : Bytes → Int) (s : EngineState)
    (k v : Bytes) (now e m : Nat) (hcap : s.capacity = 2 ^ m) :
    (findSlot s (int32ofInt (hasher k)) k =
      pathFind s.offsets s.hashes s.log (int32ofInt (hasher k)) k
        (probeSeq ((int32ofInt (hasher k)).natAbs &&& (s.capacity - 1))
          s.capacity)) ∧
    (hasOp hasher s k now =
      match findSlot s (int32ofInt (hasher k)) k with
      | none => .ok (false, s, [])
      | some (i, off) => hasFound s k now i off) ∧
    (s.cache = none →
      getOp hasher s k now =
        match findSlot s (int32ofInt (hasher k)) k with
        | none => .ok (none, s, [])
        | some (i, off) => getFound s k now i off) ∧
    (deleteOp hasher s k now =
      match findSlot (dropCached s k) (int32ofInt (hasher k)) k with
      | none => .ok (false, dropCached s k, [])
      | some (i, off) => deleteFound (dropCached s k) k now i off) ∧
    (putCall s k v (int32ofInt (hasher k)) e =
      pathPut s k v (int32ofInt (hasher k)) e
        (probeSeq ((int32ofInt (hasher k)).natAbs &&& (s.capacity - 1))
          s.capacity) none) := by
  refine ⟨findSlot_eq_pathFind s _ k m hcap, ?_, ?_, ?_,
    putCall_eq_pathPut s k v _ e m hcap⟩
  · simp only [hasOp, hasGo_eq_find, findSlot]
  · intro hc
    simp only [getOp, hc, getGo_eq_find, findSlot]
  · simp only [deleteOp, deleteGo_eq_find, findSlot]

/-- Witness for the amended C7 on the concrete 4-bucket engine. -/
theorem probe_follows_linear_sequence_witness :
    eng4.capacity = 2 ^ 2 ∧
      ((findSlot eng4 (int32ofInt (zeroHasher [1])) [1] =
        pathFind eng4.offsets eng4.hashes eng4.log (int32ofInt (zeroHasher [1]))
          [1] (probeSeq ((int32ofInt (zeroHasher [1])).natAbs &&&
            (eng4.capacity - 1)) eng4.capacity)) ∧
      (hasOp zeroHasher eng4 [1] 0 =
        match findSlot eng4 (int32ofInt (zeroHasher [1])) [1] with
        | none => .ok (false, eng4, [])
        | some (i, off) => hasFound eng4 [1] 0 i off) ∧
      (eng4.cache = none →
        getOp zeroHasher eng4 [1] 0 =
          match findSlot eng4 (int32ofInt (zeroHasher [1])) [1] with
          | none => .ok (none, eng4, [])
          | some (i, off) => getFound eng4 [1] 0 i off) ∧
      (deleteOp zeroHasher eng4 [1] 0 =
        match findSlot (dropCached eng4 [1]) (int32ofInt (zeroHasher [1])) [1] with
        | none => .ok (false, dropCached eng4 [1], [])
        | some (i, off) => deleteFound (dropCached eng4 [1]) [1] 0 i off) ∧
      (putCall eng4 [1] [2] (int32ofInt (zeroHasher [1])) 0 =
        pathPut eng4 [1] [2] (int32ofInt (zeroHasher [1])) 0
          (probeSeq ((int32ofInt (zeroHasher [1])).natAbs &&&
            (eng4.capacity - 1)) eng4.capacity) none)) :=
  ⟨by decide, probe_follows_linear_sequence zeroHasher eng4 [1] [2] 0 0 2 (by decide)⟩

theorem getD_lt_256 (log : Bytes) (hbytes : ∀ b ∈ log, b < 256) (pos : Nat) :
    log.getD pos 0 < 256 := by
  rcases Nat.lt_or_ge pos log.length with h | h
  · rw [List.getD_eq_getElem log 0 h]
    exact hbytes _ (List.getElem_mem h)
  · rw [List.getD_eq_default log 0 h]
    norm_num

theorem r32le_lt (log : Bytes) (hbytes : ∀ b ∈ log, b < 256) (pos : Nat) :
    r32le log pos < 4294967296 := by
  have h0 := getD_lt_256 log hbytes pos
  have h1 := getD_lt_256 log hbytes (pos + 1)
  have h2 := getD_lt_256 log hbytes (pos + 2)
  have h3 := getD_lt_256 log hbytes (pos + 3)
  unfold r32le
  omega

/-- The single-page ExpireAt read equals the stored (unsigned) field, minus
2^32 when the low word has its sign bit set, as long as the high word stays
below 2^31. -/
theorem readExpireRaw_eq (log : Bytes) (off : Nat)
    (hbytes : ∀ b ∈ log, b < 256)
    (hhi : r32le log (off + 9) < 2147483648) :
    readExpireRaw log off =
      (readExpireU log off : Int) -
        (if 2147483648 ≤ r32le log (off + 5) then 4294967296 else 0) := by
  have hlo := r32le_lt log hbytes (off + 5)
  unfold readExpireRaw readExpireU r32sle toInt32
  rw [Nat.mod_eq_of_lt hlo, Nat.mod_eq_of_lt (lt_trans hhi (by norm_num))]
  split_ifs <;> push_cast <;> omega

/-- On any stored ExpireAt that is non-zero, exceeded by `now`, and outside
the broken band [2^31, 2^32), the engine's signed-read expiry guard fires. -/
theorem expiry_guard_holds (log : Bytes) (off now : Nat)
    (hbytes : ∀ b ∈ log, b < 256)
    (he0 : readExpireU log off ≠ 0)
    (hnow : now > readExpireU log off)
    (hgood : readExpireU log off < 2147483648 ∨
      4294967296 ≤ readExpireU log off)
    (hbig : readExpireU log off < 9223372036854775808) :
    0 < readExpireRaw log off ∧ (now : Int) > readExpireRaw log off := by
  have hlo := r32le_lt log hbytes (off + 5)
  have hhi4 := r32le_lt log hbytes (off + 9)
  have hhi : r32le log (off + 9) < 2147483648 := by
    have hU : readExpireU log off =
        r32le log (off + 9) * 4294967296 + r32le log (off + 5) := rfl
    omega
  have heq := readExpireRaw_eq log off hbytes hhi
  have hU : readExpireU log off =
      r32le log (off + 9) * 4294967296 + r32le log (off + 5) := rfl
  rw [heq]
  split_ifs with hs
  · constructor <;> omega
  · constructor <;> omega

/-- C3 (amended).  When `get` misses the cache and the probe stops on a
matching record whose stored ExpireAt field is non-zero, exceeded by the
current time, and outside the band [2^31, 2^32) in which the signed low-word
read turns the reconstructed stamp non-positive (every realistic epoch-ms
stamp is outside it), and the auto-compaction check does not fire, then `get`
flips the record's flag to DELETED, negates the slot's offset, decrements the
live count, increments the tombstone count, emits expire(key), and returns
not-found. -/
theorem get_expiry_effects (hasher : Bytes → Int) (s : EngineState)
    (k : Bytes) (now : Nat) (i : Nat) (off : Int)
    (hc : s.cache = none ∨ ∃ c, s.cache = some c ∧ cacheGet c k = none)
    (hfind : findSlot s (int32ofInt (hasher k)) k = some (i, off))
    (hbytes : ∀ b ∈ s.log, b < 256)
    (he0 : readExpireU s.log off.toNat ≠ 0)
    (hnow : now > readExpireU s.log off.toNat)
    (hgood : readExpireU s.log off.toNat < 2147483648 ∨
      4294967296 ≤ readExpireU s.log off.toNat)
    (hbig : readExpireU s.log off.toNat < 9223372036854775808)
    (hnc : checkCompaction (tombstoneAt s i off) now =
      .ok (tombstoneAt s i off, [])) :
    getOp hasher s k now = .ok (none, tombstoneAt s i off, [.expire k]) ∧
      (tombstoneAt s i off).log = s.log.set off.toNat 2 ∧
      (tombstoneAt s i off).offsets = s.offsets.set i (-off) ∧
      (tombstoneAt s i off).size = s.size - 1 ∧
      (tombstoneAt s i off).deletedCount = s.deletedCount + 1 := by
  have hguard := expiry_guard_holds s.log off.toNat now hbytes he0 hnow hgood hbig
  have hget : getOp hasher s k now =
      match findSlot s (int32ofInt (hasher k)) k with
      | none => .ok (none, s, [])
      | some (i, off) => getFound s k now i off := by
    rcases hc with hc | ⟨c, hc, hmiss⟩
    · simp only [getOp, hc, getGo_eq_find, findSlot]
    · simp only [getOp, hc, hmiss, getGo_eq_find, findSlot]
  rw [hget, hfind]
  refine ⟨?_, rfl, rfl, rfl, rfl⟩
  show getFound s k now i off = .ok (none, tombstoneAt s i off, [.expire k])
  unfold getFound
  rw [if_pos (by simp [hguard.1, hguard.2]), hnc]
  rfl

/-- Witness for the amended C3: the TTL entry of `expiryState` (ExpireAt =
1100) is expired by `get` at t=2000. -/
theorem get_expiry_effects_witness :
    findSlot expiryState (int32ofInt (zeroHasher [7])) [7] = some (0, 1) ∧
      readExpireU expiryState.log 1 = 1100 ∧
      getOp zeroHasher expiryState [7] 2000 =
        .ok (none, tombstoneAt expiryState 0 1, [.expire [7]]) :=
  ⟨by decide, by decide,
    (get_expiry_effects zeroHasher expiryState [7] 2000 0 1 (Or.inl rfl)
      (by decide) (by decide) (by decide) (by decide) (by decide) (by decide)
      (by decide)).1⟩

/-! ### Byte-level frame lemmas -/

theorem getD_set_ne (l : Bytes) (b p v : Nat) (h : p ≠ b) :
    (l.set b v).getD p 0 = l.getD p 0 := by
  simp [List.getD_eq_getElem?_getD, List.getElem?_set_ne (Ne.symm h)]

theorem getD_set_self (l : Bytes) (b v : Nat) (h : b < l.length) :
    (l.set b v).getD b 0 = v := by
  simp [List.getD_eq_getElem?_getD, List.getElem?_set, h]

theorem getD_append_lt (l e : Bytes) (p : Nat) (h : p < l.length) :
    (l ++ e).getD p 0 = l.getD p 0 := by
  simp [List.getD_eq_getElem?_getD, List.getElem?_append, h]

theorem getD_append_ge (l e : Bytes) (j : Nat) :
    (l ++ e).getD (l.length + j) 0 = e.getD j 0 := by
  simp [List.getD_eq_getElem?_getD,
    List.getElem?_append_right (Nat.le_add_right l.length j)]

theorem readBytes_length (l : Bytes) (pos n : Nat) :
    (readBytes l pos n).length = n := by
  simp [readBytes]

theorem readBytes_getD (l : Bytes) (pos n j : Nat) (h : j < n) :
    (readBytes l pos n).getD j 0 = l.getD (pos + j) 0 := by
  simp [readBytes, List.getD_eq_getElem?_getD, List.getElem?_map,
    List.getElem?_range h]

theorem r32le_set_ne (l : Bytes) (b v pos : Nat)
    (h : b < pos ∨ pos + 3 < b) : r32le (l.set b v) pos = r32le l pos := by
  unfold r32le
  rw [getD_set_ne l b pos v (by omega), getD_set_ne l b (pos + 1) v (by omega),
    getD_set_ne l b (pos + 2) v (by omega),
    getD_set_ne l b (pos + 3) v (by omega)]

theorem r32le_append_lt (l e : Bytes) (pos : Nat) (h : pos + 3 < l.length) :
    r32le (l ++ e) pos = r32le l pos := by
  unfold r32le
  rw [getD_append_lt l e pos (by omega), getD_append_lt l e (pos + 1) (by omega),
    getD_append_lt l e (pos + 2) (by omega),
    getD_append_lt l e (pos + 3) (by omega)]

theorem r32le_append_ge (l e : Bytes) (j : Nat) :
    r32le (l ++ e) (l.length + j) = r32le e j := by
  unfold r32le
  rw [show l.length + j + 1 = l.length + (j + 1) by omega,
    show l.length + j + 2 = l.length + (j + 2) by omega,
    show l.length + j + 3 = l.length + (j + 3) by omega,
    getD_append_ge, getD_append_ge, getD_append_ge, getD_append_ge]

theorem entryLenAt_set_ne (l : Bytes) (b v pos : Nat)
    (h : b < pos + 13 ∨ pos + 20 < b) :
    entryLenAt (l.set b v) pos = entryLenAt l pos := by
  unfold entryLenAt readKeyLenI readValLenI r32sle
  rw [r32le_set_ne l b v (pos + 13) (by omega),
    r32le_set_ne l b v (pos + 17) (by omega)]

theorem entryLenAt_append_lt (l e : Bytes) (pos : Nat)
    (h : pos + 20 < l.length) :
    entryLenAt (l ++ e) pos = entryLenAt l pos := by
  unfold entryLenAt readKeyLenI readValLenI r32sle
  rw [r32le_append_lt l e (pos + 13) (by omega),
    r32le_append_lt l e (pos + 17) (by omega)]

/-! ### Sequential-parse lemmas -/

theorem parseEndFrom_ge (log : Bytes) :
    ∀ n pos, log.length - pos ≤ n → pos ≤ parseEndFrom log pos := by
  intro n
  induction n with
  | zero =>
    intro pos h
    rw [parseEndFrom]
    split
    · omega
    · exact le_refl pos
  | succ n ih =>
    intro pos h
    rw [parseEndFrom]
    split
    · next hlt =>
      have h21 : 21 ≤ entryLenAt log pos := by unfold entryLenAt; omega
      exact le_trans (by omega) (ih (pos + entryLenAt log pos) (by omega))
    · exact le_refl pos

theorem parseEndFrom_step (log : Bytes) (pos : Nat) (h : pos < log.length) :
    parseEndFrom log pos = parseEndFrom log (pos + entryLenAt log pos) := by
  rw [parseEndFrom]
  simp [h]

theorem parse_record_fits (log : Bytes) (pos : Nat)
    (hE : parseEndFrom log pos = log.length) (h : pos < log.length) :
    pos + entryLenAt log pos ≤ log.length := by
  have := parseEndFrom_ge log (log.length - (pos + entryLenAt log pos))
    (pos + entryLenAt log pos) (le_refl _)
  rw [← parseEndFrom_step log pos h, hE] at this
  exact this

theorem boundariesFrom_ge (log : Bytes) :
    ∀ n pos x, log.length - pos ≤ n → x ∈ boundariesFrom log pos → pos ≤ x := by
  intro n
  induction n with
  | zero =>
    intro pos x h hx
    rw [boundariesFrom] at hx
    split at hx
    · omega
    · simp at hx
  | succ n ih =>
    intro pos x h hx
    rw [boundariesFrom] at hx
    split at hx
    · next hlt =>
      have h21 : 21 ≤ entryLenAt log pos := by unfold entryLenAt; omega
      rcases List.mem_cons.mp hx with hx | hx
      · omega
      · have := ih (pos + entryLenAt log pos) x (by omega) hx
        omega
    · simp at hx

theorem parse_set_frame (log : Bytes) (b v : Nat) :
    ∀ n q, log.length - q ≤ n → b < q →
      parseEndFrom (log.set b v) q = parseEndFrom log q ∧
      activeCountFrom (log.set b v) q = activeCountFrom log q ∧
      boundariesFrom (log.set b v) q = boundariesFrom log q := by
  have hlen : (log.set b v).length = log.length := by simp
  intro n
  induction n with
  | zero =>
    intro q h hb
    have hq : ¬ q < log.length := by omega
    have hq' : ¬ q < (log.set b v).length := by rw [hlen]; exact hq
    refine ⟨?_, ?_, ?_⟩
    · conv_lhs => rw [parseEndFrom]
      conv_rhs => rw [parseEndFrom]
      rw [if_neg hq', if_neg hq]
    · conv_lhs => rw [activeCountFrom]
      conv_rhs => rw [activeCountFrom]
      rw [if_neg hq', if_neg hq]
    · conv_lhs => rw [boundariesFrom]
      conv_rhs => rw [boundariesFrom]
      rw [if_neg hq', if_neg hq]
  | succ n ih =>
    intro q h hb
    by_cases hlt : q < log.length
    · have hlt' : q < (log.set b v).length := by rw [hlen]; exact hlt
      have h21 : 21 ≤ entryLenAt log q := by unfold entryLenAt; omega
      have hel : entryLenAt (log.set b v) q = entryLenAt log q :=
        entryLenAt_set_ne log b v q (by omega)
      have hflag : (log.set b v).getD q 0 = log.getD q 0 :=
        getD_set_ne log b q v (by omega)
      have hih := ih (q + entryLenAt log q) (by omega) (by omega)
      refine ⟨?_, ?_, ?_⟩
      · conv_lhs => rw [parseEndFrom]
        conv_rhs => rw [parseEndFrom]
        rw [if_pos hlt', if_pos hlt, hel, hih.1]
      · conv_lhs => rw [activeCountFrom]
        conv_rhs => rw [activeCountFrom]
        rw [if_pos hlt', if_pos hlt, hel, hflag, hih.2.1]
      · conv_lhs => rw [boundariesFrom]
        conv_rhs => rw [boundariesFrom]
        rw [if_pos hlt', if_pos hlt, hel, hih.2.2]
    · have hq' : ¬ q < (log.set b v).length := by rw [hlen]; exact hlt
      refine ⟨?_, ?_, ?_⟩
      · conv_lhs => rw [parseEndFrom]
        conv_rhs => rw [parseEndFrom]
        rw [if_neg hq', if_neg hlt]
      · conv_lhs => rw [activeCountFrom]
        conv_rhs => rw [activeCountFrom]
        rw [if_neg hq', if_neg hlt]
      · conv_lhs => rw [boundariesFrom]
        conv_rhs => rw [boundariesFrom]
        rw [if_neg hq', if_neg hlt]

theorem parse_set_boundary (log : Bytes) (b : Nat) :
    ∀ n pos, log.length - pos ≤ n → parseEndFrom log pos = log.length →
      b ∈ boundariesFrom log pos →
      parseEndFrom (log.set b 2) pos = log.length ∧
      boundariesFrom (log.set b 2) pos = boundariesFrom log pos ∧
      activeCountFrom log pos =
        activeCountFrom (log.set b 2) pos +
          (if log.getD b 0 == 1 then 1 else 0) := by
  intro n
  induction n with
  | zero =>
    intro pos h hE hb
    rw [boundariesFrom] at hb
    split at hb
    · omega
    · simp at hb
  | succ n ih =>
    intro pos h hE hb
    have hlen : (log.set b 2).length = log.length := by simp
    rw [boundariesFrom] at hb
    split at hb
    · next hlt =>
      have h21 : 21 ≤ entryLenAt log pos := by unfold entryLenAt; omega
      have hnext : parseEndFrom log (pos + entryLenAt log pos) = log.length := by
        rw [← parseEndFrom_step log pos hlt]
        exact hE
      have hlt2 : pos < (log.set b 2).length := by rw [hlen]; exact hlt
      rcases List.mem_cons.mp hb with hbeq | hbtail
      · -- the flipped record starts exactly at pos
        subst hbeq
        have hel : entryLenAt (log.set b 2) b = entryLenAt log b :=
          entryLenAt_set_ne log b 2 b (by omega)
        have hflag : (log.set b 2).getD b 0 = 2 :=
          getD_set_self log b 2 hlt
        have hframe := parse_set_frame log b 2
          (log.length - (b + entryLenAt log b))
          (b + entryLenAt log b) (le_refl _) (by omega)
        refine ⟨?_, ?_, ?_⟩
        · conv_lhs => rw [parseEndFrom]
          rw [if_pos hlt2, hel, hframe.1]
          exact hnext
        · conv_lhs => rw [boundariesFrom]
          conv_rhs => rw [boundariesFrom]
          rw [if_pos hlt2, if_pos hlt, hel, hframe.2.2]
        · conv_lhs => rw [activeCountFrom]
          conv_rhs => rw [activeCountFrom]
          rw [if_pos hlt2, if_pos hlt, hel, hflag, hframe.2.1]
          cases hb1 : (log.getD b 0 == 1) <;> simp [hb1, Nat.add_comm]
      · -- the flipped record starts later
        have hbge : pos + entryLenAt log pos ≤ b :=
          boundariesFrom_ge log (log.length - (pos + entryLenAt log pos))
            (pos + entryLenAt log pos) b (le_refl _) hbtail
        have hel : entryLenAt (log.set b 2) pos = entryLenAt log pos :=
          entryLenAt_set_ne log b 2 pos (by omega)
        have hflag : (log.set b 2).getD pos 0 = log.getD pos 0 :=
          getD_set_ne log b pos 2 (by omega)
        have hih := ih (pos + entryLenAt log pos) (by omega) hnext hbtail
        refine ⟨?_, ?_, ?_⟩
        · conv_lhs => rw [parseEndFrom]
          rw [if_pos hlt2, hel]
          exact hih.1
        · conv_lhs => rw [boundariesFrom]
          conv_rhs => rw [boundariesFrom]
          rw [if_pos hlt2, if_pos hlt, hel, hih.2.1]
        · conv_lhs => rw [activeCountFrom]
          conv_rhs => rw [activeCountFrom]
          rw [if_pos hlt2, if_pos hlt, hel, hflag, hih.2.2]
          ring
    · simp at hb

/-- Flipping the flag byte of a record (ACTIVE to DELETED) preserves the
parse structure and cannot increase the ACTIVE count. -/
theorem flip_at_boundary (log : Bytes) (b : Nat) (hE : ExactParse log)
    (hb : b ∈ boundaries log) :
    ExactParse (log.set b 2) ∧ boundaries (log.set b 2) = boundaries log ∧
      activeCount (log.set b 2) ≤ activeCount log := by
  have h := parse_set_boundary log b (log.length - 1) 1 (le_refl _) hE hb
  refine ⟨?_, h.2.1, ?_⟩
  · unfold ExactParse
    rw [List.length_set]
    exact h.1
  · unfold activeCount
    omega

theorem parse_append_end (log e : Bytes) (he : 0 < e.length)
    (helen : entryLenAt (log ++ e) log.length = e.length) :
    parseEndFrom (log ++ e) log.length = (log ++ e).length ∧
      activeCountFrom (log ++ e) log.length =
        (if e.getD 0 0 == 1 then 1 else 0) ∧
      boundariesFrom (log ++ e) log.length = [log.length] := by
  have hlt : log.length < (log ++ e).length := by
    simp [List.length_append]; omega
  have hflag : (log ++ e).getD log.length 0 = e.getD 0 0 := by
    have := getD_append_ge log e 0
    simpa using this
  have hstop : ¬ log.length + e.length < (log ++ e).length := by
    simp [List.length_append]
  constructor
  · rw [parseEndFrom]
    simp only [hlt, if_true, helen]
    rw [parseEndFrom]
    simp only [hstop, if_false]
    simp [List.length_append]
  constructor
  · rw [activeCountFrom]
    simp only [hlt, if_true, helen, hflag]
    rw [activeCountFrom]
    simp only [hstop, if_false]
    omega
  · rw [boundariesFrom]
    simp only [hlt, if_true, helen]
    rw [boundariesFrom]
    simp only [hstop, if_false]

theorem parse_append (log e : Bytes) (he : 0 < e.length)
    (helen : entryLenAt (log ++ e) log.length = e.length) :
    ∀ n pos, log.length - pos ≤ n → parseEndFrom log pos = log.length →
      parseEndFrom (log ++ e) pos = (log ++ e).length ∧
      activeCountFrom (log ++ e) pos =
        activeCountFrom log pos + (if e.getD 0 0 == 1 then 1 else 0) ∧
      boundariesFrom (log ++ e) pos = boundariesFrom log pos ++ [log.length] := by
  intro n
  induction n with
  | zero =>
    intro pos h hE
    -- with no room left, pos must be exactly the end of the old log
    have hpos : pos = log.length := by
      rw [parseEndFrom] at hE
      split at hE <;> omega
    subst hpos
    have hend := parse_append_end log e he helen
    have hq : ¬ log.length < log.length := by omega
    refine ⟨hend.1, ?_, ?_⟩
    · rw [hend.2.1, activeCountFrom]
      simp [hq]
    · rw [hend.2.2, boundariesFrom]
      simp [hq]
  | succ n ih =>
    intro pos h hE
    by_cases hlt : pos < log.length
    · have h21 : 21 ≤ entryLenAt log pos := by unfold entryLenAt; omega
      have hfits : pos + entryLenAt log pos ≤ log.length :=
        parse_record_fits log pos hE hlt
      have hnext : parseEndFrom log (pos + entryLenAt log pos) = log.length := by
        rw [← parseEndFrom_step log pos hlt]
        exact hE
      have hel : entryLenAt (log ++ e) pos = entryLenAt log pos :=
        entryLenAt_append_lt log e pos (by omega)
      have hflag : (log ++ e).getD pos 0 = log.getD pos 0 :=
        getD_append_lt log e pos hlt
      have hltA : pos < (log ++ e).length := by
        simp [List.length_append]; omega
      have hih := ih (pos + entryLenAt log pos) (by omega) hnext
      refine ⟨?_, ?_, ?_⟩
      · conv_lhs => rw [parseEndFrom]
        rw [if_pos hltA, hel]
        exact hih.1
      · conv_lhs => rw [activeCountFrom]
        conv_rhs => rw [activeCountFrom]
        rw [if_pos hltA, if_pos hlt, hel, hflag, hih.2.1]
        ring
      · conv_lhs => rw [boundariesFrom]
        conv_rhs => rw [boundariesFrom]
        rw [if_pos hltA, if_pos hlt, hel, hih.2.2]
        simp
    · have hpos : pos = log.length := by
        rw [parseEndFrom] at hE
        split at hE <;> omega
      subst hpos
      have hend := parse_append_end log e he helen
      have hq : ¬ log.length < log.length := by omega
      refine ⟨hend.1, ?_, ?_⟩
      · rw [hend.2.1, activeCountFrom]
        simp [hq]
      · rw [hend.2.2, boundariesFrom]
        simp [hq]

/-- Appending a record-shaped chunk whose stored lengths match its size adds
its flag to the ACTIVE count and its start to the record boundaries. -/
theorem append_record (log e : Bytes) (hE : ExactParse log)
    (he : 0 < e.length)
    (helen : entryLenAt (log ++ e) log.length = e.length) :
    ExactParse (log ++ e) ∧
      activeCount (log ++ e) =
        activeCount log + (if e.getD 0 0 == 1 then 1 else 0) ∧
      boundaries (log ++ e) = boundaries log ++ [log.length] := by
  have h := parse_append log e he helen (log.length - 1) 1 (by omega) hE
  exact ⟨h.1, h.2.1, h.2.2⟩


/-! ### Helpers for the load-factor theorem -/

theorem intGetD_set_ne (l : List Int) (b p : Nat) (v : Int) (h : p ≠ b) :
    (l.set b v).getD p 0 = l.getD p 0 := by
  simp [List.getD_eq_getElem?_getD, List.getElem?_set_ne (Ne.symm h)]

theorem intGetD_set_or (l : List Int) (b p : Nat) (v : Int) :
    (l.set b v).getD p 0 = v ∨ (l.set b v).getD p 0 = l.getD p 0 := by
  by_cases hp : p = b
  · subst hp
    by_cases h : p < l.length
    · left
      simp [List.getD_eq_getElem?_getD, List.getElem?_set, h]
    · right
      have h1 : (l.set p v)[p]? = none :=
        List.getElem?_eq_none (by simpa using h)
      have h2 : l[p]? = none := List.getElem?_eq_none (by omega)
      simp [List.getD_eq_getElem?_getD, h1, h2]
  · right
    exact intGetD_set_ne l b p v hp

theorem intGetD_replicate (n i : Nat) :
    (List.replicate n (0 : Int)).getD i 0 = 0 := by
  by_cases h : i < n
  · simp [List.getD_eq_getElem?_getD, List.getElem?_replicate, h]
  · have h1 : (List.replicate n (0 : Int))[i]? = none :=
      List.getElem?_eq_none (by simpa using h)
    simp [List.getD_eq_getElem?_getD, h1]

theorem slots_replicate (n : Nat) (log : Bytes) :
    SlotsPointAtRecords (List.replicate n 0) log := by
  intro i h
  exact absurd (intGetD_replicate n i) h

theorem pow2ceil_pow (j : Nat) : pow2ceil (2 ^ j) = 2 ^ j := by
  unfold pow2ceil
  have h : 2 ^ j &&& (2 ^ j - 1) = 0 := by
    rw [Nat.and_pow_two_sub_one_eq_mod]
    simp
  simp [h]

theorem r32le_readBytes (l : Bytes) (pos n j : Nat) (h : j + 3 < n) :
    r32le (readBytes l pos n) j = r32le l (pos + j) := by
  unfold r32le
  rw [readBytes_getD l pos n j (by omega),
    readBytes_getD l pos n (j + 1) (by omega),
    readBytes_getD l pos n (j + 2) (by omega),
    readBytes_getD l pos n (j + 3) (by omega),
    show pos + (j + 1) = pos + j + 1 by omega,
    show pos + (j + 2) = pos + j + 2 by omega,
    show pos + (j + 3) = pos + j + 3 by omega]

theorem entryLenAt_append_chunk (newLog oldLog : Bytes) (cursor : Nat) :
    entryLenAt (newLog ++ readBytes oldLog cursor (entryLenAt oldLog cursor))
      newLog.length = entryLenAt oldLog cursor := by
  have h21 : 21 ≤ entryLenAt oldLog cursor := by unfold entryLenAt; omega
  generalize hL : entryLenAt oldLog cursor = L at *
  rw [entryLenAt] at hL
  rw [entryLenAt]
  unfold readKeyLenI readValLenI r32sle at hL ⊢
  rw [r32le_append_ge, r32le_append_ge,
    r32le_readBytes oldLog cursor L 13 (by omega),
    r32le_readBytes oldLog cursor L 17 (by omega), hL]

theorem checkCompaction_skip (s : EngineState) (now : Nat)
    (h : s.size + s.deletedCount <
      (if s.minSize == 0 then 1000 else s.minSize)) :
    checkCompaction s now = .ok (s, []) := by
  unfold checkCompaction
  by_cases hac : s.autoCompact
  · have h' : s.size + s.deletedCount <
        (if s.minSize = 0 then 1000 else s.minSize) := by
      by_cases h0 : s.minSize = 0
      · simpa [h0] using h
      · simpa [h0] using h
    simp [hac, h']
  · simp [hac]

theorem fillSlot_offsets (hashes offsets : List Int) (mask : Nat)
    (hashI off : Int) (start : Nat) :
    ∀ fuel idx h' o',
      fillSlot hashes offsets mask hashI off start fuel idx = some (h', o') →
      ∀ i, o'.getD i 0 = off ∨ o'.getD i 0 = offsets.getD i 0 := by
  intro fuel
  induction fuel with
  | zero =>
    intro idx h' o' hf
    simp [fillSlot] at hf
  | succ fuel ih =>
    intro idx h' o' hf i
    rw [fillSlot] at hf
    by_cases h1 : (offsets.getD idx 0 == 0) = true
    · rw [if_pos h1] at hf
      cases hf
      by_cases hi : i = idx
      · subst hi
        exact (intGetD_set_or offsets i i off).imp id id
      · right
        exact intGetD_set_ne offsets idx i off hi
    · rw [if_neg h1] at hf
      by_cases h2 : (((idx + 1) &&& mask) == start) = true
      · rw [if_pos h2] at hf
        cases hf
      · rw [if_neg h2] at hf
        exact ih _ _ _ hf i

theorem exactParse_zero_log : ExactParse [0] := by
  unfold ExactParse
  rw [parseEndFrom]
  simp

theorem activeCount_zero_log : activeCount [0] = 0 := by
  unfold activeCount
  rw [activeCountFrom]
  simp

/-- The replay loop of `resize` preserves the structural invariant of the new
log/index pair and recounts exactly the ACTIVE records of the old log. -/
theorem resizeGo_good (oldLog : Bytes) (newCap newMem : Nat) :
    ∀ fuel cursor hashes offsets newLog sz h' o' log' sz',
      oldLog.length - cursor ≤ fuel →
      parseEndFrom oldLog cursor = oldLog.length →
      ExactParse newLog → 1 ≤ newLog.length →
      activeCount newLog = sz →
      SlotsPointAtRecords offsets newLog →
      resizeGo oldLog oldLog.length newCap newMem fuel cursor hashes offsets
        newLog sz = .ok (h', o', log', sz') →
      ExactParse log' ∧ 1 ≤ log'.length ∧ activeCount log' = sz' ∧
        SlotsPointAtRecords o' log' ∧
        sz' = sz + activeCountFrom oldLog cursor := by
  intro fuel
  induction fuel with
  | zero =>
    intro cursor hashes offsets newLog sz h' o' log' sz' hfu hpe hEP h1 hAC
      hSL hres
    simp only [resizeGo] at hres
    cases hres
    have hend : ¬ cursor < oldLog.length := by omega
    refine ⟨hEP, h1, hAC, hSL, ?_⟩
    rw [activeCountFrom, if_neg hend]
    omega
  | succ fuel ih =>
    intro cursor hashes offsets newLog sz h' o' log' sz' hfu hpe hEP h1 hAC
      hSL hres
    simp only [resizeGo] at hres
    by_cases hlt : cursor < oldLog.length
    · rw [if_pos hlt] at hres
      have h21 : 21 ≤ entryLenAt oldLog cursor := by unfold entryLenAt; omega
      have hnext : parseEndFrom oldLog (cursor + entryLenAt oldLog cursor) =
          oldLog.length := by
        rw [← parseEndFrom_step oldLog cursor hlt]
        exact hpe
      by_cases hflag : oldLog.getD cursor 0 = 1
      · rw [if_pos (by rw [hflag]; decide)] at hres
        by_cases hmem :
            newLog.length + entryLenAt oldLog cursor > newMem
        · rw [if_pos hmem] at hres
          cases hres
        · rw [if_neg hmem] at hres
          split at hres
          · cases hres
          · rename_i hh oo hfill
            have happ := append_record newLog
              (readBytes oldLog cursor (entryLenAt oldLog cursor)) hEP
              (by rw [readBytes_length]; omega)
              (by rw [readBytes_length]
                  exact entryLenAt_append_chunk newLog oldLog cursor)
            have hflagv :
                (readBytes oldLog cursor (entryLenAt oldLog cursor)).getD 0 0
                  = 1 := by
              rw [readBytes_getD oldLog cursor _ 0 (by omega), Nat.add_zero]
              exact hflag
            have hACnew : activeCount
                (newLog ++ readBytes oldLog cursor (entryLenAt oldLog cursor))
                  = sz + 1 := by
              rw [happ.2.1, hAC, hflagv]
              simp
            have hSLnew : SlotsPointAtRecords oo
                (newLog ++
                  readBytes oldLog cursor (entryLenAt oldLog cursor)) := by
              intro i hi
              rcases fillSlot_offsets hashes offsets (newCap - 1) _ _ _ _ _
                  hh oo hfill i with hcase | hcase
              · rw [hcase, happ.2.2]
                simp
              · rw [hcase] at hi ⊢
                rw [happ.2.2]
                exact List.mem_append_left _ (hSL i hi)
            have hrec := ih (cursor + entryLenAt oldLog cursor) hh oo
              (newLog ++ readBytes oldLog cursor (entryLenAt oldLog cursor))
              (sz + 1) h' o' log' sz' (by omega) hnext happ.1
              (by rw [List.length_append]; omega) hACnew hSLnew hres
            refine ⟨hrec.1, hrec.2.1, hrec.2.2.1, hrec.2.2.2.1, ?_⟩
            rw [hrec.2.2.2.2]
            conv_rhs => rw [activeCountFrom]
            rw [if_pos hlt]
            simp only [hflag]
            simp only [show ((1 : Nat) == 1) = true from rfl, if_true]
            omega
      · rw [if_neg (by simp only [beq_iff_eq]; exact hflag)] at hres
        have hrec := ih (cursor + entryLenAt oldLog cursor) hashes offsets
          newLog sz h' o' log' sz' (by omega) hnext hEP h1 hAC hSL hres
        refine ⟨hrec.1, hrec.2.1, hrec.2.2.1, hrec.2.2.2.1, ?_⟩
        rw [hrec.2.2.2.2]
        conv_rhs => rw [activeCountFrom]
        rw [if_pos hlt]
        have hfb : (oldLog.getD cursor 0 == 1) = false := by
          simp only [beq_eq_false_iff_ne, ne_eq]
          exact hflag
        rw [hfb]
        simp
    · rw [if_neg hlt] at hres
      cases hres
      refine ⟨hEP, h1, hAC, hSL, ?_⟩
      rw [activeCountFrom, if_neg hlt]
      omega

/-- `resize` keeps the bookkeeping fields, recounts `size` from the log, and
yields a structurally well-formed state. -/
theorem resizeOp_good (s : EngineState) (newCapacity newMemory : Nat)
    (hE : ExactParse s.log) (t : EngineState)
    (h : resizeOp s newCapacity newMemory = .ok t) :
    t.capacity = pow2ceil newCapacity ∧ t.minSize = s.minSize ∧
      t.deletedCount = s.deletedCount ∧ t.bufLen = newMemory ∧
      t.size = activeCount s.log ∧ t.autoCompact = s.autoCompact ∧
      ExactParse t.log ∧ 1 ≤ t.log.length ∧ activeCount t.log = t.size ∧
      SlotsPointAtRecords t.offsets t.log := by
  simp only [resizeOp] at h
  split at h
  · cases h
  · rename_i hh oo newLog sz heq
    cases h
    have hrec := resizeGo_good s.log (pow2ceil newCapacity) newMemory
      s.log.length 1 (List.replicate (pow2ceil newCapacity) 0)
      (List.replicate (pow2ceil newCapacity) 0) [0] 0 hh oo newLog sz
      (by omega) hE exactParse_zero_log (by simp) activeCount_zero_log
      (slots_replicate _ _) heq
    refine ⟨rfl, rfl, rfl, rfl, ?_, rfl, hrec.1, hrec.2.1, hrec.2.2.1,
      hrec.2.2.2.1⟩
    show sz = activeCount s.log
    have := hrec.2.2.2.2
    unfold activeCount
    omega

/-- The probe loop of `put` returns `tableFull` only with the caller's state
unchanged. -/
theorem putGo_tableFull (s : EngineState) (k v : Bytes) (hashI : Int) (e : Nat)
    (start : Nat) :
    ∀ fuel idx tomb t,
      putGo s k v hashI e start fuel idx tomb = .tableFull t → t = s := by
  intro fuel
  induction fuel with
  | zero =>
    intro idx tomb t h
    simp only [putGo] at h
    cases h
    rfl
  | succ fuel ih =>
    intro idx tomb t h
    simp only [putGo] at h
    by_cases h1 : (s.offsets.getD idx 0 == 0) = true
    · rw [if_pos h1] at h
      by_cases h2 : s.log.length + entrySize k v > s.bufLen
      · rw [if_pos h2] at h
        cases h
      · rw [if_neg h2] at h
        cases h
    · rw [if_neg h1] at h
      by_cases h3 : s.offsets.getD idx 0 < 0
      · rw [if_pos h3] at h
        by_cases h4 : (((idx + 1) &&& (s.capacity - 1)) == start) = true
        · rw [if_pos h4] at h
          cases h
          rfl
        · rw [if_neg h4] at h
          exact ih _ _ _ h
      · rw [if_neg h3] at h
        by_cases h5 : (s.hashes.getD idx 0 == hashI &&
            keyMatchesAt s.log (s.offsets.getD idx 0).toNat k) = true
        · rw [if_pos h5] at h
          by_cases h6 : (s.log.set (s.offsets.getD idx 0).toNat 2).length +
              entrySize k v > s.bufLen
          · rw [if_pos h6] at h
            cases h
          · rw [if_neg h6] at h
            cases h
        · rw [if_neg h5] at h
          by_cases h4 : (((idx + 1) &&& (s.capacity - 1)) == start) = true
          · rw [if_pos h4] at h
            cases h
            rfl
          · rw [if_neg h4] at h
            exact ih _ _ _ h

/-- A successful `put` keeps capacity and configuration, grows the live count
by at most one record, and adds at most one tombstone. -/
theorem putGo_ok_fields (s : EngineState) (k v : Bytes) (hashI : Int) (e : Nat)
    (start : Nat) :
    ∀ fuel idx tomb t,
      putGo s k v hashI e start fuel idx tomb = .ok t →
      t.capacity = s.capacity ∧ t.minSize = s.minSize ∧
        t.size ≤ s.size + 1 ∧ t.deletedCount ≤ s.deletedCount + 1 := by
  intro fuel
  induction fuel with
  | zero =>
    intro idx tomb t h
    simp only [putGo] at h
    cases h
  | succ fuel ih =>
    intro idx tomb t h
    simp only [putGo] at h
    by_cases h1 : (s.offsets.getD idx 0 == 0) = true
    · rw [if_pos h1] at h
      by_cases h2 : s.log.length + entrySize k v > s.bufLen
      · rw [if_pos h2] at h
        cases h
      · rw [if_neg h2] at h
        cases h
        refine ⟨rfl, rfl, ?_, ?_⟩ <;> simp
    · rw [if_neg h1] at h
      by_cases h3 : s.offsets.getD idx 0 < 0
      · rw [if_pos h3] at h
        by_cases h4 : (((idx + 1) &&& (s.capacity - 1)) == start) = true
        · rw [if_pos h4] at h
          cases h
        · rw [if_neg h4] at h
          exact ih _ _ _ h
      · rw [if_neg h3] at h
        by_cases h5 : (s.hashes.getD idx 0 == hashI &&
            keyMatchesAt s.log (s.offsets.getD idx 0).toNat k) = true
        · rw [if_pos h5] at h
          by_cases h6 : (s.log.set (s.offsets.getD idx 0).toNat 2).length +
              entrySize k v > s.bufLen
          · rw [if_pos h6] at h
            cases h
          · rw [if_neg h6] at h
            cases h
            refine ⟨rfl, rfl, ?_, ?_⟩ <;> simp
        · rw [if_neg h5] at h
          by_cases h4 : (((idx + 1) &&& (s.capacity - 1)) == start) = true
          · rw [if_pos h4] at h
            cases h
          · rw [if_neg h4] at h
            exact ih _ _ _ h

/-- A `put` that fails on a full data buffer has at most flipped one ACTIVE
record to DELETED and tombstoned its slot: the structural invariant survives
and the live count does not increase. -/
theorem putGo_bufFull_good (s : EngineState) (k v : Bytes) (hashI : Int)
    (e : Nat) (start : Nat) (hgood : GoodState s) :
    ∀ fuel idx tomb t,
      putGo s k v hashI e start fuel idx tomb = .bufFull t →
      t.capacity = s.capacity ∧ t.minSize = s.minSize ∧ t.bufLen = s.bufLen ∧
        t.size = s.size ∧ t.deletedCount ≤ s.deletedCount + 1 ∧
        ExactParse t.log ∧ 1 ≤ t.log.length ∧ activeCount t.log ≤ s.size ∧
        SlotsPointAtRecords t.offsets t.log := by
  intro fuel
  induction fuel with
  | zero =>
    intro idx tomb t h
    simp only [putGo] at h
    cases h
  | succ fuel ih =>
    intro idx tomb t h
    simp only [putGo] at h
    by_cases h1 : (s.offsets.getD idx 0 == 0) = true
    · rw [if_pos h1] at h
      by_cases h2 : s.log.length + entrySize k v > s.bufLen
      · rw [if_pos h2] at h
        cases h
        refine ⟨rfl, rfl, rfl, rfl, by omega, hgood.1, hgood.2.2.2, ?_,
          hgood.2.2.1⟩
        · exact le_of_eq hgood.2.1
      · rw [if_neg h2] at h
        cases h
    · rw [if_neg h1] at h
      by_cases h3 : s.offsets.getD idx 0 < 0
      · rw [if_pos h3] at h
        by_cases h4 : (((idx + 1) &&& (s.capacity - 1)) == start) = true
        · rw [if_pos h4] at h
          cases h
        · rw [if_neg h4] at h
          exact ih _ _ _ h
      · rw [if_neg h3] at h
        by_cases h5 : (s.hashes.getD idx 0 == hashI &&
            keyMatchesAt s.log (s.offsets.getD idx 0).toNat k) = true
        · rw [if_pos h5] at h
          by_cases h6 : (s.log.set (s.offsets.getD idx 0).toNat 2).length +
              entrySize k v > s.bufLen
          · rw [if_pos h6] at h
            cases h
            have hne : s.offsets.getD idx 0 ≠ 0 := by simpa using h1
            have hpos : 0 < s.offsets.getD idx 0 := by omega
            have htn : (s.offsets.getD idx 0).toNat =
                (s.offsets.getD idx 0).natAbs := by omega
            have hb : (s.offsets.getD idx 0).natAbs ∈ boundaries s.log :=
              hgood.2.2.1 idx hne
            have hflip := flip_at_boundary s.log
              (s.offsets.getD idx 0).toNat hgood.1 (by rw [htn]; exact hb)
            refine ⟨rfl, rfl, rfl, rfl, by simp, hflip.1,
              by rw [List.length_set]; exact hgood.2.2.2, ?_, ?_⟩
            · calc activeCount (s.log.set (s.offsets.getD idx 0).toNat 2)
                  ≤ activeCount s.log := hflip.2.2
                _ = s.size := hgood.2.1
            · intro i hi
              by_cases hidx : i = idx
              · subst hidx
                rcases intGetD_set_or s.offsets i i
                    (-(s.offsets.getD i 0)) with hc | hc
                · rw [hc] at hi ⊢
                  rw [hflip.2.1, Int.natAbs_neg]
                  exact hb
                · rw [hc] at hi ⊢
                  rw [hflip.2.1]
                  exact hgood.2.2.1 i hi
              · rw [intGetD_set_ne s.offsets idx i _ hidx] at hi ⊢
                rw [hflip.2.1]
                exact hgood.2.2.1 i hi
          · rw [if_neg h6] at h
            cases h
        · rw [if_neg h5] at h
          by_cases h4 : (((idx + 1) &&& (s.capacity - 1)) == start) = true
          · rw [if_pos h4] at h
            cases h
          · rw [if_neg h4] at h
            exact ih _ _ _ h

/-- When the post-mutation compaction check is below the minimum-size gate,
`setFinish` just emits the `set` event. -/
theorem setFinish_skip (s2 : EngineState) (k v : Bytes) (ev0 : List Event)
    (now : Nat)
    (h : s2.size + s2.deletedCount <
      (if s2.minSize == 0 then 1000 else s2.minSize)) :
    setFinish s2 k v ev0 now = .ok (s2, ev0 ++ [.setEv k v]) := by
  unfold setFinish
  rw [checkCompaction_skip s2 now h]
  simp

/-- Through the buffer-doubling retry loop of `set`, capacity is preserved and
a successful exit keeps the live count at most one above the pre-`set` live
count, so the 3/4 bound survives. -/
theorem setRetry_ok (k v : Bytes) (hashI : Int) (e : Nat) (ev0 : List Event)
    (now : Nat) (C S D M j : Nat) (hC : C = 2 ^ j)
    (hSC : 4 * (S + 1) ≤ 3 * C)
    (hSD : S + 1 + D < (if M == 0 then 1000 else M)) :
    ∀ n t s' evs,
      t.capacity = C → t.minSize = M → ExactParse t.log → 1 ≤ t.log.length →
      SlotsPointAtRecords t.offsets t.log → activeCount t.log ≤ S →
      t.size ≤ S → t.deletedCount + n ≤ D →
      setRetry k v hashI e ev0 now n t = .ok (s', evs) →
      4 * s'.size ≤ 3 * s'.capacity := by
  intro n
  induction n with
  | zero =>
    intro t s' evs hcap hmin hEP h1 hSL hac hsz hdel hret
    simp only [setRetry] at hret
    cases hret
  | succ n ih =>
    intro t s' evs hcap hmin hEP h1 hSL hac hsz hdel hret
    simp only [setRetry] at hret
    split at hret
    · cases hret
    · rename_i t1 hres
      obtain ⟨hr1, hr2, hr3, hr4, hr5, hr6, hr7, hr8, hr9, hr10⟩ :=
        resizeOp_good t t.capacity (t.bufLen * 2) hEP t1 hres
      have ht1cap : t1.capacity = C := by
        rw [hr1, hcap, hC, pow2ceil_pow]
      have ht1min : t1.minSize = M := by rw [hr2, hmin]
      have ht1size : t1.size ≤ S := by
        rw [hr5]
        exact hac
      split at hret
      · rename_i t2 hput
        simp only [putCall] at hput
        obtain ⟨hp1, hp2, hp3, hp4⟩ :=
          putGo_ok_fields t1 k v hashI e _ _ _ _ _ hput
        have hskip : t2.size + t2.deletedCount <
            (if t2.minSize == 0 then 1000 else t2.minSize) := by
          rw [hp2, ht1min]
          omega
        rw [setFinish_skip t2 k v ev0 now hskip] at hret
        cases hret
        rw [hp1, ht1cap]
        omega
      · rename_i t2 hput
        simp only [putCall] at hput
        obtain ⟨hb1, hb2, hb3, hb4, hb5, hb6, hb7, hb8, hb9⟩ :=
          putGo_bufFull_good t1 k v hashI e _ ⟨hr7, hr9, hr10, hr8⟩ _ _ _ _
            hput
        exact ih t2 s' evs (hb1.trans ht1cap) (hb2.trans ht1min) hb6 hb7 hb9
          (le_trans hb8 ht1size) (by omega) (by omega) hret
      · cases hret

/-- C4 (amended): a successful `set` keeps the LIVE load factor at or below
3/4: the resize trigger compares only the live record count (tombstones are
not part of the trigger, see the separate counterexample), so the invariant
that survives is `4 * size ≤ 3 * capacity` for a power-of-two capacity,
provided the engine is structurally well-formed and far enough below the
auto-compaction gate that `compact()` is not entered. -/
theorem live_load_factor_after_set (hasher : Bytes → Int) (s : EngineState)
    (k v : Bytes) (ttlOpt : Option Nat) (now m : Nat) (s' : EngineState)
    (evs : List Event)
    (hcap : s.capacity = 2 ^ m) (hm : 2 ≤ m)
    (hload : 4 * s.size ≤ 3 * s.capacity)
    (hgood : GoodState s)
    (hmin : s.size + s.deletedCount + 5 <
      (if s.minSize == 0 then 1000 else s.minSize))
    (hset : setOp hasher s k v ttlOpt now = .ok (s', evs)) :
    4 * s'.size ≤ 3 * s'.capacity := by
  have hp4 : (4 : Nat) ≤ 2 ^ m :=
    le_trans (by norm_num) (Nat.pow_le_pow_right (by omega) hm)
  have hpow : 2 ^ (m + 1) = 2 * 2 ^ m := by rw [pow_succ]; ring
  rw [hcap] at hload
  simp only [setOp] at hset
  split at hset
  · cases hset
  · rename_i s1 heq
    split at heq
    · rename_i hcond
      obtain ⟨hr1, hr2, hr3, hr4, hr5, hr6, hr7, hr8, hr9, hr10⟩ :=
        resizeOp_good _ (s.capacity * 2) (s.bufLen * 2) (by exact hgood.1)
          s1 heq
      have hcap2 : s.capacity * 2 = 2 ^ (m + 1) := by rw [hcap, hpow]; ring
      have hs1capJ : s1.capacity = 2 ^ (m + 1) := by
        rw [hr1, hcap2, pow2ceil_pow]
      have hs1size : s1.size = s.size := by
        have h5 : s1.size = activeCount s.log := hr5
        rw [h5, hgood.2.1]
      have hs1min : s1.minSize = s.minSize := hr2
      have hs1del : s1.deletedCount = s.deletedCount := hr3
      have hg1 : GoodState s1 := ⟨hr7, hr9, hr10, hr8⟩
      have hSC4 : 4 * (s.size + 1) ≤ 3 * s1.capacity := by
        rw [hs1capJ]
        omega
      split at hset
      · rename_i s2 hput
        simp only [putCall] at hput
        obtain ⟨hp1, hp2, hp3, hp4'⟩ :=
          putGo_ok_fields s1 k v _ _ _ _ _ _ _ hput
        have hskip : s2.size + s2.deletedCount <
            (if s2.minSize == 0 then 1000 else s2.minSize) := by
          rw [hp2, hs1min]
          omega
        rw [setFinish_skip s2 k v _ now hskip] at hset
        cases hset
        rw [hp1]
        omega
      · rename_i s2 hput
        simp only [putCall] at hput
        obtain ⟨hb1, hb2, hb3, hb4, hb5, hb6, hb7, hb8, hb9⟩ :=
          putGo_bufFull_good s1 k v _ _ _ hg1 _ _ _ _ hput
        have hSD : s.size + 1 + (s.deletedCount + 4) <
            (if s.minSize == 0 then 1000 else s.minSize) := by omega
        exact setRetry_ok k v _ _ _ now s1.capacity s.size
          (s.deletedCount + 4) s.minSize (m + 1) hs1capJ hSC4 hSD 3 s2 s' evs
          hb1 (hb2.trans hs1min) hb6 hb7 hb9 (by omega) (by omega) (by omega)
          hset
      · rename_i s2 hput
        simp only [putCall] at hput
        have h2eq := putGo_tableFull s1 k v _ _ _ _ _ _ _ hput
        rw [h2eq] at hset
        split at hset
        · cases hset
        · rename_i s3 heq3
          obtain ⟨hq1, hq2, hq3, hq4, hq5, hq6, hq7, hq8, hq9, hq10⟩ :=
            resizeOp_good s1 (s1.capacity * 2) (s1.bufLen * 2) hg1.1 s3 heq3
          have hs3cap : s3.capacity = 2 ^ (m + 2) := by
            rw [hq1, hs1capJ,
              (pow_succ 2 (m + 1)).symm,
              pow2ceil_pow]
          have hs3size : s3.size = s.size := by
            rw [hq5, hg1.2.1, hs1size]
          split at hset
          · rename_i s4 hput4
            simp only [putCall] at hput4
            obtain ⟨hp1, hp2, hp3, hp4'⟩ :=
              putGo_ok_fields s3 k v _ _ _ _ _ _ _ hput4
            have hskip : s4.size + s4.deletedCount <
                (if s4.minSize == 0 then 1000 else s4.minSize) := by
              rw [hp2, hq2, hs1min]
              omega
            rw [setFinish_skip s4 k v _ now hskip] at hset
            cases hset
            rw [hp1, hs3cap]
            have hpj : 2 ^ (m + 2) = 2 * 2 ^ (m + 1) := by rw [pow_succ]; ring
            rw [hs1capJ] at hSC4
            omega
          · cases hset
          · cases hset
    · rename_i hcond
      have h01 := heq
      injection h01 with h01
      have hs1cap : s1.capacity = s.capacity := by rw [← h01]
      have hs1size : s1.size = s.size := by rw [← h01]
      have hs1min : s1.minSize = s.minSize := by rw [← h01]
      have hs1del : s1.deletedCount = s.deletedCount := by rw [← h01]
      have hs1log : s1.log = s.log := by rw [← h01]
      have hs1off : s1.offsets = s.offsets := by rw [← h01]
      have hg1 : GoodState s1 := by
        refine ⟨?_, ?_, ?_, ?_⟩
        · rw [hs1log]
          exact hgood.1
        · rw [hs1log, hs1size]
          exact hgood.2.1
        · rw [hs1off, hs1log]
          exact hgood.2.2.1
        · rw [hs1log]
          exact hgood.2.2.2
      have hs1capJ : s1.capacity = 2 ^ m := by rw [hs1cap, hcap]
      have hfour : 2 ^ m = 4 * 2 ^ (m - 2) := by
        rw [show (4 : Nat) = 2 ^ 2 from rfl, ← pow_add]
        congr 1
        omega
      have hSC4 : 4 * (s.size + 1) ≤ 3 * s1.capacity := by
        rw [hs1capJ]
        omega
      split at hset
      · rename_i s2 hput
        simp only [putCall] at hput
        obtain ⟨hp1, hp2, hp3, hp4'⟩ :=
          putGo_ok_fields s1 k v _ _ _ _ _ _ _ hput
        have hskip : s2.size + s2.deletedCount <
            (if s2.minSize == 0 then 1000 else s2.minSize) := by
          rw [hp2, hs1min]
          omega
        rw [setFinish_skip s2 k v _ now hskip] at hset
        cases hset
        rw [hp1]
        omega
      · rename_i s2 hput
        simp only [putCall] at hput
        obtain ⟨hb1, hb2, hb3, hb4, hb5, hb6, hb7, hb8, hb9⟩ :=
          putGo_bufFull_good s1 k v _ _ _ hg1 _ _ _ _ hput
        have hSD : s.size + 1 + (s.deletedCount + 4) <
            (if s.minSize == 0 then 1000 else s.minSize) := by omega
        exact setRetry_ok k v _ _ _ now s1.capacity s.size
          (s.deletedCount + 4) s.minSize m hs1capJ hSC4 hSD 3 s2 s' evs
          hb1 (hb2.trans hs1min) hb6 hb7 hb9 (by omega) (by omega) (by omega)
          hset
      · rename_i s2 hput
        simp only [putCall] at hput
        have h2eq := putGo_tableFull s1 k v _ _ _ _ _ _ _ hput
        rw [h2eq] at hset
        split at hset
        · cases hset
        · rename_i s3 heq3
          obtain ⟨hq1, hq2, hq3, hq4, hq5, hq6, hq7, hq8, hq9, hq10⟩ :=
            resizeOp_good s1 (s1.capacity * 2) (s1.bufLen * 2) hg1.1 s3 heq3
          have hs3cap : s3.capacity = 2 ^ (m + 1) := by
            rw [hq1, hs1capJ,
              (pow_succ 2 m).symm,
              pow2ceil_pow]
          have hs3size : s3.size = s.size := by
            rw [hq5, hg1.2.1, hs1size]
          split at hset
          · rename_i s4 hput4
            simp only [putCall] at hput4
            obtain ⟨hp1, hp2, hp3, hp4'⟩ :=
              putGo_ok_fields s3 k v _ _ _ _ _ _ _ hput4
            have hskip : s4.size + s4.deletedCount <
                (if s4.minSize == 0 then 1000 else s4.minSize) := by
              rw [hp2, hq2, hs1min]
              omega
            rw [setFinish_skip s4 k v _ now hskip] at hset
            cases hset
            rw [hp1, hs3cap]
            rw [hs1capJ] at hSC4
            omega
          · cases hset
          · cases hset

/-- C4 witness: the amended load-factor theorem applied to a concrete engine
and `set` call, every hypothesis discharged by computation. -/
theorem live_load_factor_after_set_witness :
    4 * c4after.size ≤ 3 * c4after.capacity :=
  live_load_factor_after_set zeroHasher eng4 [7] [8] none 5 2 c4after
    [.setEv [7] [8]] (by decide) (by decide) (by decide)
    ⟨exactParse_zero_log, activeCount_zero_log, slots_replicate 4 eng4.log,
      by decide⟩
    (by decide) (by rfl)

/-! ### Snapshot layout lemmas -/

theorem flattenWords_length (l : List Int) :
    ((l.map serializeBucketWord).flatten).length = 4 * l.length := by
  induction l with
  | nil => simp
  | cons a t ih =>
    simp only [List.map_cons, List.flatten_cons, List.length_append, ih,
      serializeBucketWord, w32le, List.length_cons, List.length_nil]
    omega

theorem r32le_w32le (x : Nat) (r : Bytes) :
    r32le (w32le x ++ r) 0 = x % 4294967296 := by
  simp only [r32le, w32le, List.cons_append, List.nil_append,
    List.getD_cons_zero, List.getD_cons_succ]
  omega

theorem serialize_take5 (s : EngineState) :
    (serializeBytes s).take 5 = rogueMagic := by
  simp [serializeBytes, rogueMagic]

theorem serialize_getD5 (s : EngineState) :
    (serializeBytes s).getD 5 0 = 2 := by
  simp [serializeBytes, rogueMagic]

theorem serialize_length (s : EngineState)
    (hoff : s.offsets.length = s.capacity) :
    (serializeBytes s).length = 22 + 4 * s.capacity + s.log.length := by
  simp only [serializeBytes, rogueMagic, List.length_append,
    flattenWords_length, hoff, w32le, List.length_cons, List.length_nil]

theorem r32le_serialize_shift (s : EngineState) (j : Nat) :
    r32le (serializeBytes s) (22 + j) =
      r32le ((s.offsets.map serializeBucketWord).flatten ++ s.log) j := by
  unfold serializeBytes
  simp only [List.append_assoc]
  rw [show 22 + j = rogueMagic.length + (17 + j) by
        simp only [rogueMagic, List.length_cons, List.length_nil]; omega,
    r32le_append_ge,
    show 17 + j = ([2] : Bytes).length + (16 + j) by
        simp only [List.length_cons, List.length_nil]; omega,
    r32le_append_ge,
    show 16 + j = (w32le s.capacity).length + (12 + j) by
        simp only [w32le, List.length_cons, List.length_nil]; omega,
    r32le_append_ge,
    show 12 + j = (w32le s.size).length + (8 + j) by
        simp only [w32le, List.length_cons, List.length_nil]; omega,
    r32le_append_ge,
    show 8 + j = (w32le s.log.length).length + (4 + j) by
        simp only [w32le, List.length_cons, List.length_nil]; omega,
    r32le_append_ge,
    show 4 + j = (w32le s.log.length).length + (0 + j) by
        simp only [w32le, List.length_cons, List.length_nil]; omega,
    r32le_append_ge, Nat.zero_add]

theorem getD_serialize_shift (s : EngineState) (j : Nat) :
    (serializeBytes s).getD (22 + j) 0 =
      ((s.offsets.map serializeBucketWord).flatten ++ s.log).getD j 0 := by
  unfold serializeBytes
  simp only [List.append_assoc]
  rw [show 22 + j = rogueMagic.length + (17 + j) by
        simp only [rogueMagic, List.length_cons, List.length_nil]; omega,
    getD_append_ge,
    show 17 + j = ([2] : Bytes).length + (16 + j) by
        simp only [List.length_cons, List.length_nil]; omega,
    getD_append_ge,
    show 16 + j = (w32le s.capacity).length + (12 + j) by
        simp only [w32le, List.length_cons, List.length_nil]; omega,
    getD_append_ge,
    show 12 + j = (w32le s.size).length + (8 + j) by
        simp only [w32le, List.length_cons, List.length_nil]; omega,
    getD_append_ge,
    show 8 + j = (w32le s.log.length).length + (4 + j) by
        simp only [w32le, List.length_cons, List.length_nil]; omega,
    getD_append_ge,
    show 4 + j = (w32le s.log.length).length + (0 + j) by
        simp only [w32le, List.length_cons, List.length_nil]; omega,
    getD_append_ge, Nat.zero_add]

theorem serialize_cap (s : EngineState) :
    r32le (serializeBytes s) 6 = s.capacity % 4294967296 := by
  unfold serializeBytes
  simp only [List.append_assoc]
  rw [show (6 : Nat) = rogueMagic.length + 1 by rfl, r32le_append_ge,
    show (1 : Nat) = ([2] : Bytes).length + 0 by rfl, r32le_append_ge,
    r32le_w32le]

theorem serialize_size (s : EngineState) :
    r32le (serializeBytes s) 10 = s.size % 4294967296 := by
  unfold serializeBytes
  simp only [List.append_assoc]
  rw [show (10 : Nat) = rogueMagic.length + 5 by rfl, r32le_append_ge,
    show (5 : Nat) = ([2] : Bytes).length + 4 by rfl, r32le_append_ge,
    show (4 : Nat) = (w32le s.capacity).length + 0 by rfl, r32le_append_ge,
    r32le_w32le]

theorem serialize_wo (s : EngineState) :
    r32le (serializeBytes s) 14 = s.log.length % 4294967296 := by
  unfold serializeBytes
  simp only [List.append_assoc]
  rw [show (14 : Nat) = rogueMagic.length + 9 by rfl, r32le_append_ge,
    show (9 : Nat) = ([2] : Bytes).length + 8 by rfl, r32le_append_ge,
    show (8 : Nat) = (w32le s.capacity).length + 4 by rfl, r32le_append_ge,
    show (4 : Nat) = (w32le s.size).length + 0 by rfl, r32le_append_ge,
    r32le_w32le]

theorem serialize_buf (s : EngineState) :
    r32le (serializeBytes s) 18 = s.log.length % 4294967296 := by
  unfold serializeBytes
  simp only [List.append_assoc]
  rw [show (18 : Nat) = rogueMagic.length + 13 by rfl, r32le_append_ge,
    show (13 : Nat) = ([2] : Bytes).length + 12 by rfl, r32le_append_ge,
    show (12 : Nat) = (w32le s.capacity).length + 8 by rfl, r32le_append_ge,
    show (8 : Nat) = (w32le s.size).length + 4 by rfl, r32le_append_ge,
    show (4 : Nat) = (w32le s.log.length).length + 0 by rfl, r32le_append_ge,
    r32le_w32le]

theorem r32le_flatten_words (r : Bytes) :
    ∀ (l : List Int) (i : Nat), i < l.length →
      r32le ((l.map serializeBucketWord).flatten ++ r) (4 * i) =
        (l.getD i 0).natAbs % 4294967296 := by
  intro l
  induction l with
  | nil =>
    intro i hi
    simp at hi
  | cons a t ih =>
    intro i hi
    cases i with
    | zero =>
      simp only [List.map_cons, List.flatten_cons, List.append_assoc,
        Nat.mul_zero, List.getD_cons_zero]
      unfold serializeBucketWord
      rw [r32le_w32le]
      omega
    | succ i =>
      simp only [List.map_cons, List.flatten_cons, List.append_assoc,
        List.getD_cons_succ]
      rw [show 4 * (i + 1) = (serializeBucketWord a).length + 4 * i by
            simp only [serializeBucketWord, w32le, List.length_cons,
              List.length_nil]
            omega,
        r32le_append_ge, ih i (by simpa using hi)]

theorem readBytes_serialize (s : EngineState)
    (hoff : s.offsets.length = s.capacity) :
    readBytes (serializeBytes s) (22 + 4 * s.capacity) s.log.length =
      s.log := by
  apply List.ext_getElem
  · rw [readBytes_length]
  · intro i h1 h2
    have hg : (readBytes (serializeBytes s) (22 + 4 * s.capacity)
        s.log.length).getD i 0 = s.log.getD i 0 := by
      rw [readBytes_getD _ _ _ i h2,
        show 22 + 4 * s.capacity + i = 22 + (4 * s.capacity + i) by omega,
        getD_serialize_shift,
        show 4 * s.capacity + i =
          ((s.offsets.map serializeBucketWord).flatten).length + i by
            rw [flattenWords_length, hoff],
        getD_append_ge]
    rw [← List.getD_eq_getElem _ 0 h1, ← List.getD_eq_getElem _ 0 h2]
    exact hg

theorem roundTripWF_fields (s : EngineState) (hWF : RoundTripWF s = true) :
    s.capacity < 4294967296 ∧ s.size < 4294967296 ∧
      s.log.length < 4294967296 ∧ s.offsets.length = s.capacity ∧
      s.hashes.length = s.capacity := by
  unfold RoundTripWF at hWF
  simp only [Bool.and_eq_true, decide_eq_true_eq, beq_iff_eq] at hWF
  exact ⟨hWF.1.1.1.1.1, hWF.1.1.1.1.2, hWF.1.1.1.2, hWF.1.1.2, hWF.1.2⟩

theorem roundTripWF_slot (s : EngineState) (hWF : RoundTripWF s = true)
    (i : Nat) (hi : i < s.capacity) :
    (s.offsets.getD i 0 = 0 → s.hashes.getD i 0 = 0) ∧
    (s.offsets.getD i 0 ≠ 0 →
      (s.offsets.getD i 0).natAbs < s.log.length ∧
      (s.offsets.getD i 0).natAbs < 2147483648 ∧
      (0 < s.offsets.getD i 0 →
        s.log.getD (s.offsets.getD i 0).toNat 0 = 1) ∧
      (s.offsets.getD i 0 < 0 →
        s.log.getD (s.offsets.getD i 0).natAbs 0 = 2) ∧
      readHash s.log (s.offsets.getD i 0).natAbs = s.hashes.getD i 0) := by
  unfold RoundTripWF at hWF
  simp only [Bool.and_eq_true, List.all_eq_true, decide_eq_true_eq,
    beq_iff_eq] at hWF
  have hslot := hWF.2 i (List.mem_range.mpr hi)
  by_cases h0 : s.offsets.getD i 0 = 0
  · rw [if_pos (by rw [h0])] at hslot
    exact ⟨fun _ => by simpa using hslot, fun hne => absurd h0 hne⟩
  · rw [if_neg (by simpa using h0)] at hslot
    simp only [Bool.and_eq_true, decide_eq_true_eq, beq_iff_eq] at hslot
    refine ⟨fun h => absurd h h0, fun _ => ?_⟩
    refine ⟨hslot.1.1.1, hslot.1.1.2, ?_, ?_, hslot.2⟩
    · intro hpos
      have := hslot.1.2
      rw [if_pos hpos] at this
      simpa using this
    · intro hneg
      have := hslot.1.2
      rw [if_neg (by omega)] at this
      simpa using this

theorem rebuild_slot_eq (s : EngineState) (hWF : RoundTripWF s = true)
    (i : Nat) (hi : i < s.capacity) :
    rebuildSlot s.log (toInt32 ((s.offsets.getD i 0).natAbs % 4294967296)) =
      (s.hashes.getD i 0, s.offsets.getD i 0) := by
  obtain ⟨hzero, hnz⟩ := roundTripWF_slot s hWF i hi
  by_cases h0 : s.offsets.getD i 0 = 0
  · rw [h0, hzero h0]
    simp [rebuildSlot, toInt32]
  · obtain ⟨hlen, h31, hpos1, hneg2, hhash⟩ := hnz h0
    have hmod : (s.offsets.getD i 0).natAbs % 4294967296 =
        (s.offsets.getD i 0).natAbs := Nat.mod_eq_of_lt (by omega)
    have ht32 : toInt32 ((s.offsets.getD i 0).natAbs % 4294967296) =
        (((s.offsets.getD i 0).natAbs : Nat) : Int) := by
      rw [hmod]
      unfold toInt32
      rw [Nat.mod_eq_of_lt
        (show (s.offsets.getD i 0).natAbs < 4294967296 by omega),
        if_pos (by omega)]
    rw [ht32]
    simp only [rebuildSlot]
    have hne0 : ¬(((((s.offsets.getD i 0).natAbs : Nat) : Int) == 0)
        = true) := by
      simp only [beq_iff_eq, Int.natCast_eq_zero]
      omega
    rw [if_neg hne0]
    have htn : ((((s.offsets.getD i 0).natAbs : Nat) : Int)).toNat =
        (s.offsets.getD i 0).natAbs := by omega
    rw [htn]
    by_cases hsgn : 0 < s.offsets.getD i 0
    · have hflag : s.log.getD (s.offsets.getD i 0).natAbs 0 = 1 := by
        have habs : (s.offsets.getD i 0).toNat =
            (s.offsets.getD i 0).natAbs := by omega
        rw [← habs]
        exact hpos1 hsgn
      rw [if_pos (by rw [hflag]; decide)]
      have hN : ((((s.offsets.getD i 0).natAbs : Nat) : Int)) =
          s.offsets.getD i 0 := by omega
      rw [hhash, hN]
    · have hneg : s.offsets.getD i 0 < 0 := by omega
      have hflag : s.log.getD (s.offsets.getD i 0).natAbs 0 = 2 :=
        hneg2 hneg
      rw [if_neg (by rw [hflag]; decide), if_pos (by rw [hflag]; decide)]
      have hN : -((((s.offsets.getD i 0).natAbs : Nat) : Int)) =
          s.offsets.getD i 0 := by omega
      rw [hhash, hN]

theorem slots_rebuild_fst (s : EngineState) (hWF : RoundTripWF s = true) :
    ((List.range s.capacity).map fun i =>
        rebuildSlot s.log
          (toInt32 (r32le (serializeBytes s) (22 + 4 * i)))).map
      (fun p => p.1) = s.hashes := by
  obtain ⟨hc, hs, hl, hoff, hh⟩ := roundTripWF_fields s hWF
  apply List.ext_getElem
  · simp [hh]
  · intro i h1 h2
    simp only [List.getElem_map, List.getElem_range]
    have hi : i < s.capacity := by simpa using h1
    rw [r32le_serialize_shift,
      r32le_flatten_words s.log s.offsets i (by omega),
      rebuild_slot_eq s hWF i hi, ← List.getD_eq_getElem s.hashes 0 h2]

theorem slots_rebuild_snd (s : EngineState) (hWF : RoundTripWF s = true) :
    ((List.range s.capacity).map fun i =>
        rebuildSlot s.log
          (toInt32 (r32le (serializeBytes s) (22 + 4 * i)))).map
      (fun p => p.2) = s.offsets := by
  obtain ⟨hc, hs, hl, hoff, hh⟩ := roundTripWF_fields s hWF
  apply List.ext_getElem
  · simp [hoff]
  · intro i h1 h2
    simp only [List.getElem_map, List.getElem_range]
    have hi : i < s.capacity := by simpa using h1
    rw [r32le_serialize_shift,
      r32le_flatten_words s.log s.offsets i (by omega),
      rebuild_slot_eq s hWF i hi, ← List.getD_eq_getElem s.offsets 0 h2]

/-- `tableRead` only looks at the index arrays, the log, and the capacity. -/
theorem tableRead_eq_of_fields (t s : EngineState)
    (hc : t.capacity = s.capacity) (hh : t.hashes = s.hashes)
    (ho : t.offsets = s.offsets) (hl : t.log = s.log) (hashI : Int)
    (k : Bytes) (now : Nat) :
    tableRead t hashI k now = tableRead s hashI k now := by
  unfold tableRead findSlot
  rw [hc, hh, ho, hl]

/-- `entries()` only looks at the log. -/
theorem entriesList_eq_of_fields (t s : EngineState) (hl : t.log = s.log)
    (now : Nat) : entriesList t now = entriesList s now := by
  unfold entriesList
  rw [hl]

/-- `loadFromBuffer` applied to `serialize()` output reconstructs the engine:
same capacity, index arrays, live count and log; the data buffer shrinks to
the used length and the tombstone counter restarts at zero. -/
theorem loadFromBuffer_serialize (e0 s : EngineState)
    (hWF : RoundTripWF s = true) :
    loadFromBuffer e0 (serializeBytes s) =
      (none,
        { e0 with
            capacity := s.capacity, hashes := s.hashes,
            offsets := s.offsets, size := s.size, log := s.log,
            bufLen := s.log.length, deletedCount := 0 }) := by
  obtain ⟨hc32, hs32, hl32, hoff, hh⟩ := roundTripWF_fields s hWF
  have hcap : r32le (serializeBytes s) 6 = s.capacity := by
    rw [serialize_cap, Nat.mod_eq_of_lt hc32]
  have hsize : r32le (serializeBytes s) 10 = s.size := by
    rw [serialize_size, Nat.mod_eq_of_lt hs32]
  have hwo : r32le (serializeBytes s) 14 = s.log.length := by
    rw [serialize_wo, Nat.mod_eq_of_lt hl32]
  have hbuf : r32le (serializeBytes s) 18 = s.log.length := by
    rw [serialize_buf, Nat.mod_eq_of_lt hl32]
  simp only [loadFromBuffer]
  rw [if_neg (by simp [serialize_take5]),
    if_neg (by rw [serialize_length s hoff]; omega),
    if_neg (by rw [serialize_getD5]; exact fun hcon => hcon rfl),
    hcap, hsize, hwo, hbuf, readBytes_serialize s hoff,
    slots_rebuild_fst s hWF, slots_rebuild_snd s hWF]

/-- C1: snapshot round-trip.  For a well-formed engine (32-bit-representable
header fields, index arrays sized to the capacity, slots pointing at records
whose flag matches the offset sign and whose stored hash matches the slot),
`deserialize(serialize(S))` loads without error and reproduces the
table-observable behaviour of S: the same live count, the same table lookup
result for every key at every time, and the same iteration output. -/
theorem snapshot_roundtrip (s : EngineState) (c0 im0 csz ttl : Nat)
    (hWF : RoundTripWF s = true) :
    (deserializeOp (serializeBytes s) c0 im0 csz ttl).1 = none ∧
    (deserializeOp (serializeBytes s) c0 im0 csz ttl).2.size = s.size ∧
    (∀ hashI k now,
      tableRead (deserializeOp (serializeBytes s) c0 im0 csz ttl).2 hashI k
        now = tableRead s hashI k now) ∧
    (∀ now,
      entriesList (deserializeOp (serializeBytes s) c0 im0 csz ttl).2 now =
        entriesList s now) := by
  have h := loadFromBuffer_serialize (mkEngine c0 im0 csz ttl) s hWF
  unfold deserializeOp
  rw [h]
  refine ⟨rfl, rfl, ?_, ?_⟩
  · intro hashI k now
    exact tableRead_eq_of_fields _ s rfl rfl rfl rfl hashI k now
  · intro now
    exact entriesList_eq_of_fields _ s rfl now

/-- C1 witness: the round-trip theorem applied to a concrete populated engine
with one live record and one tombstone. -/
theorem snapshot_roundtrip_witness :
    RoundTripWF c1State = true ∧
    (deserializeOp (serializeBytes c1State) 4 4096 0 0).1 = none ∧
    (deserializeOp (serializeBytes c1State) 4 4096 0 0).2.size =
      c1State.size ∧
    entriesList (deserializeOp (serializeBytes c1State) 4 4096 0 0).2 7 =
      entriesList c1State 7 :=
  ⟨by decide,
    (snapshot_roundtrip c1State 4 4096 0 0 (by decide)).1,
    (snapshot_roundtrip c1State 4 4096 0 0 (by decide)).2.1,
    (snapshot_roundtrip c1State 4 4096 0 0 (by decide)).2.2.2 7⟩

end RogueMap
